import Mathlib

/-!
Verification of the occupancy grid builder
(`simple_sensor_simulator/src/sensor_simulation/occupancy_grid/occupancy_grid_builder.cpp`).

The C++ double arithmetic is embedded as exact rational arithmetic (`ℚ`); machine
`double` operations on the values appearing here are exact, so the embedding is faithful
on the inputs we evaluate.  The accumulator grids are modelled as lists of integers
(the spec describes them as signed integer accumulators), `std::vector` writes as
`List.set`, reads as `List.getD`.  Quantities that are transcendental in the source
(`std::atan2` bearings, `M_PI`) are abstracted as rational parameters where the claims
concern only the order structure of the bearings.
-/

namespace OccupancyGrid

/-- 3D point with rational coordinates, modelling `geometry_msgs::msg::Point`
(= `OccupancyGridBuilder::PointType`) and `Eigen::Vector3d`. -/
@[ext]
structure Vec3 where
  x : ℚ
  y : ℚ
  z : ℚ
deriving DecidableEq, Repr

/-- Quaternion with rational components, modelling `Eigen::Quaterniond` built as
`Quat(r.w, r.x, r.y, r.z)` from the origin orientation. -/
@[ext]
structure Quat where
  w : ℚ
  x : ℚ
  y : ℚ
  z : ℚ
deriving DecidableEq, Repr

/-- Sensor pose (`PoseType`): 3D position plus orientation quaternion. -/
structure Pose where
  position : Vec3
  orientation : Quat
deriving DecidableEq, Repr

def vadd (u v : Vec3) : Vec3 := ⟨u.x + v.x, u.y + v.y, u.z + v.z⟩

def vsub (u v : Vec3) : Vec3 := ⟨u.x - v.x, u.y - v.y, u.z - v.z⟩

def smul (k : ℚ) (v : Vec3) : Vec3 := ⟨k * v.x, k * v.y, k * v.z⟩

/-- Cross product of 3D vectors (`Eigen::Vector3d::cross`). -/
def cross (u v : Vec3) : Vec3 :=
  ⟨u.y * v.z - u.z * v.y, u.z * v.x - u.x * v.z, u.x * v.y - u.y * v.x⟩

/-- Vector part of a quaternion (`Eigen::Quaterniond::vec`). -/
def qvec (q : Quat) : Vec3 := ⟨q.x, q.y, q.z⟩

/-- Quaternion conjugate (`Eigen::Quaterniond::conjugate`). -/
def qconj (q : Quat) : Quat := ⟨q.w, -q.x, -q.y, -q.z⟩

/-- Hamilton product of quaternions. -/
def quatMul (a b : Quat) : Quat :=
  ⟨a.w * b.w - a.x * b.x - a.y * b.y - a.z * b.z,
   a.w * b.x + a.x * b.w + a.y * b.z - a.z * b.y,
   a.w * b.y - a.x * b.z + a.y * b.w + a.z * b.x,
   a.w * b.z + a.x * b.y - a.y * b.x + a.z * b.w⟩

/-- Squared norm of a quaternion. -/
def normSq (q : Quat) : ℚ := q.w ^ 2 + q.x ^ 2 + q.y ^ 2 + q.z ^ 2

/-- Quaternion-vector product as Eigen implements `operator*(Quaterniond, Vector3d)`
(`_transformVector`): `uv = 2 * (q.vec × v); v + q.w * uv + q.vec × uv`. -/
def eigenRotate (q : Quat) (v : Vec3) : Vec3 :=
  let uv0 := cross (qvec q) v
  let uv := vadd uv0 uv0
  vadd (vadd v (smul q.w uv)) (cross (qvec q) uv)

/-- Rotation of a vector by a quaternion through the sandwich product
`q ⊗ (0, v) ⊗ q*`; this is the textbook rotation the spec's words describe. -/
def quatRotate (q : Quat) (v : Vec3) : Vec3 :=
  qvec (quatMul (quatMul q ⟨0, v.x, v.y, v.z⟩) (qconj q))

/-- Grid parameters fixed at construction, plus the primitive-counter ceiling.
`count_max` is modelled from the spec: the counter type `MarkerCounterType` is declared
in the builder header, which is not part of the sources; the spec describes the counter
as a bounded unsigned count with a representable maximum, made an explicit constant. -/
structure Params where
  resolution : ℚ
  height : ℕ
  width : ℕ
  occupied_cost : ℤ
  invisible_cost : ℤ
  count_max : ℕ
deriving DecidableEq, Repr

/-- `OccupancyGridBuilder::transformToGrid`: rotate the point by the conjugate of the
origin orientation (Eigen's quaternion-vector product), then subtract the raw,
un-rotated origin position. -/
def transformToGrid (origin : Pose) (p : Vec3) : Vec3 :=
  vsub (eigenRotate (qconj origin.orientation) p) origin.position

/-- Transcription of the spec's description of `transformToGrid`: the point rotated by
the conjugate (inverse) of the origin's orientation — as the mathematical sandwich
rotation — minus the origin's raw (un-rotated) position. -/
def transformToGridSpec (origin : Pose) (p : Vec3) : Vec3 :=
  vsub (quatRotate (qconj origin.orientation) p) origin.position

/-- `OccupancyGridBuilder::transformToPixel`:
`pixel = (point + (width, height) * resolution / 2) / resolution` (x and y only). -/
def transformToPixel (pr : Params) (p : Vec3) : ℚ × ℚ :=
  ((p.x + (pr.width : ℚ) * pr.resolution / 2) / pr.resolution,
   (p.y + (pr.height : ℚ) * pr.resolution / 2) / pr.resolution)

/-- Parameter interval in which the point `a + t * (b - a)` lies inside `[lo, hi]`,
before clamping to `[0, 1]`; `none` when the interval is empty. Helper for the
segment/cell intersection test of the modelled digital line traversal. -/
def slab (a b lo hi : ℚ) : Option (ℚ × ℚ) :=
  if a = b then (if lo ≤ a ∧ a ≤ hi then some (0, 1) else none)
  else
    some (min ((lo - a) / (b - a)) ((hi - a) / (b - a)),
          max ((lo - a) / (b - a)) ((hi - a) / (b - a)))

/-- Modelled from the spec: decidable test that the closed segment from `(px, py)` to
`(qx, qy)` meets the closed unit cell `[c, c+1] × [r, r+1]` (Liang–Barsky style slab
clipping).  Part of the model of `GridTraversal`, whose source
(`grid_traversal.hpp/cpp`) is not among the provided files. -/
def segMeetsBox (px py qx qy : ℚ) (c r : ℤ) : Bool :=
  match slab px qx (c : ℚ) ((c : ℚ) + 1), slab py qy (r : ℚ) ((r : ℚ) + 1) with
  | some (l1, u1), some (l2, u2) => decide (max 0 (max l1 l2) ≤ min 1 (min u1 u2))
  | _, _ => false

/-- Integers from `a` to `b` inclusive. -/
def intRange (a b : ℤ) : List ℤ := (List.range (b + 1 - a).toNat).map fun k => a + (k : ℤ)

/-- Modelled from the spec: `GridTraversal(p.x, p.y, q.x, q.y)` — the digital line
traversal enumerating the `(column, row)` grid cells that the continuous segment
passes through (spec §4.3 and glossary).  The traversal source file is not among the
provided sources, so it is modelled as the cells of the segment's bounding box whose
closed unit square meets the closed segment. -/
def GridTraversal (px py qx qy : ℚ) : List (ℤ × ℤ) :=
  (intRange ⌊min px qx⌋ ⌊max px qx⌋).flatMap fun c =>
    (intRange ⌊min py qy⌋ ⌊max py qy⌋).filterMap fun r =>
      if segMeetsBox px py qx qy c r then some (c, r) else none

/-- One step of the scratch-buffer scan in `addPolygon`: for a traversed cell
`(col, row)`, when `0 ≤ row < height`, record
`mincols[row] = min(mincols[row], col)` and `maxcols[row] = max(maxcols[row], col)`. -/
def scanStep (h : ℕ) (st : (ℕ → ℤ) × (ℕ → ℤ)) (cell : ℤ × ℤ) : (ℕ → ℤ) × (ℕ → ℤ) :=
  if 0 ≤ cell.2 ∧ cell.2 < (h : ℤ) then
    (Function.update st.1 cell.2.toNat (min (st.1 cell.2.toNat) cell.1),
     Function.update st.2 cell.2.toNat (max (st.2 cell.2.toNat) cell.1))
  else st

/-- All cells visited by the digital line traversal over the polygon's edges,
including the implicit closing edge: for each `i`, the edge from
`transformToPixel(hull[i])` to `transformToPixel(hull[(i+1) % hull.size()])`. -/
def visitedCells (pr : Params) (poly : List Vec3) : List (ℤ × ℤ) :=
  (List.range poly.length).flatMap fun i =>
    let p := transformToPixel pr (poly.getD i ⟨0, 0, 0⟩)
    let q := transformToPixel pr (poly.getD ((i + 1) % poly.length) ⟨0, 0, 0⟩)
    GridTraversal p.1 p.2 q.1 q.2

/-- The scratch buffers `mincols_` / `maxcols_` after the edge scan of `addPolygon`:
re-initialized to the sentinels `width` / `-1`, then folded over all traversed cells. -/
def scanPolygon (pr : Params) (poly : List Vec3) : (ℕ → ℤ) × (ℕ → ℤ) :=
  (visitedCells pr poly).foldl (scanStep pr.height)
    (fun _ => (pr.width : ℤ), fun _ => (-1 : ℤ))

/-- Second phase of `addPolygon` for one row: if `0 ≤ mincols[row] < width` increment
`grid[width*row + mincols[row]]`; if `0 ≤ maxcols[row]` and `maxcols[row] + 1 < width`
decrement `grid[width*row + maxcols[row] + 1]`. -/
def applyRow (w : ℕ) (mn mx : ℕ → ℤ) (r : ℕ) (g : List ℤ) : List ℤ :=
  let g1 :=
    if 0 ≤ mn r ∧ mn r < (w : ℤ) then
      g.set (w * r + (mn r).toNat) (g.getD (w * r + (mn r).toNat) 0 + 1)
    else g
  if 0 ≤ mx r ∧ mx r + 1 < (w : ℤ) then
    g1.set (w * r + (mx r).toNat + 1) (g1.getD (w * r + (mx r).toNat + 1) 0 - 1)
  else g1

/-- `OccupancyGridBuilder::addPolygon`: scan the polygon edges into the per-row
minimum/maximum crossing columns, then apply the difference-array updates row by row. -/
def addPolygon (pr : Params) (g : List ℤ) (poly : List Vec3) : List ℤ :=
  let s := scanPolygon pr poly
  (List.range pr.height).foldl (fun acc r => applyRow pr.width s.1 s.2 r acc) g

/-- Builder state: sensor pose, primitive counter, the two difference-array
accumulators and the output cost array. -/
@[ext]
structure GridState where
  origin : Pose
  primitive_count : ℕ
  occupied_grid : List ℤ
  invisible_grid : List ℤ
  values : List ℤ
deriving DecidableEq, Repr

/-- Constructor state: grids of size `height * width`, zero-initialized; the origin is
the default pose (`geometry_msgs` defaults: zero position, identity quaternion). -/
def initState (pr : Params) : GridState :=
  { origin := ⟨⟨0, 0, 0⟩, ⟨1, 0, 0, 0⟩⟩
    primitive_count := 0
    occupied_grid := List.replicate (pr.height * pr.width) 0
    invisible_grid := List.replicate (pr.height * pr.width) 0
    values := List.replicate (pr.height * pr.width) 0 }

/-- `OccupancyGridBuilder::reset`: store the new origin, zero the primitive counter,
assign both accumulator arrays to all zeros at their current size; `values` is kept. -/
def reset (o : Pose) (s : GridState) : GridState :=
  { s with
    origin := o
    primitive_count := 0
    invisible_grid := List.replicate s.invisible_grid.length 0
    occupied_grid := List.replicate s.occupied_grid.length 0 }

/-- `OccupancyGridBuilder::makeOccupiedArea`: the primitive's 2D convex hull (supplied
externally by `primitive.get2DConvexHull()`, so the primitive is modelled as its hull),
with every vertex transformed to the grid frame. -/
def makeOccupiedArea (o : Pose) (hull : List Vec3) : List Vec3 :=
  hull.map (transformToGrid o)

/-- `OccupancyGridBuilder::add`.  The check `primitive_count_++ == count_max` has the
post-increment side effect: the counter is incremented (wrapping to 0 at the unsigned
maximum) before the comparison of its old value, and when the old value equals
`count_max` the call throws.  `makeInvisibleArea` computes with `std::atan2` and `M_PI`
and hence has no exact rational evaluation; it is deterministic in its argument, so it
is abstracted by the parameter `invf` (its angular selection logic and corner walk are
modelled separately below).  On failure the error carries the post-throw state. -/
def add (pr : Params) (invf : List Vec3 → List Vec3) (hull : List Vec3)
    (s : GridState) : Except GridState GridState :=
  let c := s.primitive_count
  let s1 := { s with primitive_count := if c = pr.count_max then 0 else c + 1 }
  if c = pr.count_max then .error s1
  else
    let occupied_area := makeOccupiedArea s.origin hull
    let invisible_area := invf occupied_area
    let s2 := { s1 with invisible_grid := addPolygon pr s1.invisible_grid invisible_area }
    .ok { s2 with occupied_grid := addPolygon pr s2.occupied_grid occupied_area }

/-- Sequence of `add` calls within one cycle; an error aborts the rest. -/
def runAdds (pr : Params) (invf : List Vec3 → List Vec3) (hulls : List (List Vec3))
    (s : GridState) : Except GridState GridState :=
  hulls.foldl (fun acc hl => acc.bind (add pr invf hl)) (Except.ok s)

/-- One in-place step of the imos prefix-sum pass:
`grid[i+1] += grid[i]`. -/
def imosStep (g : List ℤ) (i : ℕ) : List ℤ := g.set (i + 1) (g.getD (i + 1) 0 + g.getD i 0)

/-- One row of the imos pass of `build`: for `col` with `col + 1 < width`,
`grid[base + col + 1] += grid[base + col]` sequentially from the left. -/
def imosRow (w base : ℕ) (g : List ℤ) : List ℤ :=
  (List.range (w - 1)).foldl (fun acc c => imosStep acc (base + c)) g

/-- The full imos pass of `build`: every row, left to right. -/
def imosPass (h w : ℕ) (g : List ℤ) : List ℤ :=
  (List.range h).foldl (fun acc r => imosRow w (r * w) acc) g

/-- `OccupancyGridBuilder::build`: prefix-sum both accumulators row by row, then
`values_[i] = occupied ? occupied_cost : invisible ? invisible_cost : 0` — C++
truthiness, i.e. the test is for a nonzero accumulator value. -/
def build (pr : Params) (s : GridState) : GridState :=
  let inv2 := imosPass pr.height pr.width s.invisible_grid
  let occ2 := imosPass pr.height pr.width s.occupied_grid
  { s with
    invisible_grid := inv2
    occupied_grid := occ2
    values := (List.range (pr.height * pr.width)).map fun i =>
      if occ2.getD i 0 ≠ 0 then pr.occupied_cost
      else if inv2.getD i 0 ≠ 0 then pr.invisible_cost
      else 0 }

/-- Remapping of a bearing into `[0, 2π)` used by the re-selection in
`makeInvisibleArea`: `adjust(theta) = theta < 0 ? theta + 2π : theta`.  The
transcendental `M_PI` is abstracted as the parameter `Pi`. -/
def adjustTheta (Pi θ : ℚ) : ℚ := if θ < 0 then θ + 2 * Pi else θ

/-- Value at the first minimum of `f` over the nonempty list `a :: l`, as
`std::minmax_element` selects its minimum. -/
def selMinBy (f : ℚ → ℚ) (a : ℚ) (l : List ℚ) : ℚ :=
  l.foldl (fun x y => if f y < f x then y else x) a

/-- Value at the last maximum of `f` over the nonempty list `a :: l`, as
`std::minmax_element` selects its maximum. -/
def selMaxBy (f : ℚ → ℚ) (a : ℚ) (l : List ℚ) : ℚ :=
  l.foldl (fun x y => if f x ≤ f y then y else x) a

/-- The bearing-pair selection of `makeInvisibleArea` over the list of hull-vertex
bearings (the `atan2` values, abstracted as rationals in `(-Pi, Pi]`): take the
min/max-bearing pair; if the span exceeds `Pi`, re-select using the bearings remapped
into `[0, 2Pi)`; finally `maxang += 2Pi` when `minang > maxang`.  Returns
`(minang, maxang)`. -/
def selectWedge (Pi : ℚ) (a : ℚ) (l : List ℚ) : ℚ × ℚ :=
  let m0 := selMinBy id a l
  let M0 := selMaxBy id a l
  let mm :=
    if M0 - m0 > Pi then (selMinBy (adjustTheta Pi) a l, selMaxBy (adjustTheta Pi) a l)
    else (m0, M0)
  (mm.1, if mm.1 > mm.2 then mm.2 + 2 * Pi else mm.2)

/-- Bearing of `corners(i)` in the corner walks of `makeInvisibleArea`: the four
rectangle-corner bearings repeat with period 4 (`i % 4`).  The bearings themselves are
`atan2` values, abstracted as the parameter `c`. -/
def cornersTheta (c : Fin 4 → ℚ) (i : ℕ) : ℚ := c ⟨i % 4, Nat.mod_lt i (by norm_num)⟩

/-- Row prefix sum of the difference array, as the spec describes the coverage count:
`sumTo g base c = g[base] + g[base+1] + ... + g[base+c]`. -/
def sumTo (g : List ℤ) (base c : ℕ) : ℤ := ∑ k ∈ Finset.range (c + 1), g.getD (base + k) 0

/-- The per-row, per-column contribution of one `addPolygon` call to the difference
array, read off the two guarded writes: `+1` at the recorded minimum column when it
lies in `[0, width)`, `-1` at the recorded maximum column + 1 when that lies in
`[0, width)` (with the maximum column itself nonnegative). -/
def rowDelta (w : ℕ) (mn mx : ℕ → ℤ) (r c : ℕ) : ℤ :=
  (if 0 ≤ mn r ∧ mn r < (w : ℤ) ∧ c = (mn r).toNat then 1 else 0)
    - (if 0 ≤ mx r ∧ mx r + 1 < (w : ℤ) ∧ c = (mx r).toNat + 1 then 1 else 0)

/-- Total per-cell contribution of one `addPolygon pr · poly` call. -/
def polyDelta (pr : Params) (poly : List Vec3) (j : ℕ) : ℤ :=
  if j < pr.height * pr.width then
    rowDelta pr.width (scanPolygon pr poly).1 (scanPolygon pr poly).2
      (j / pr.width) (j % pr.width)
  else 0

/-- The pixel-space segment from `p` to `q` lies entirely outside the (closed) grid
rectangle `[0, width] × [0, height]`.  The claim's half-open rectangle is strengthened
to the closed one because which of two adjacent cells a boundary-grazing segment
touches is a convention of the modelled traversal. -/
def segOutsideGrid (w h : ℕ) (p q : ℚ × ℚ) : Prop :=
  ∀ t : ℚ, 0 ≤ t → t ≤ 1 →
    ¬(0 ≤ p.1 + t * (q.1 - p.1) ∧ p.1 + t * (q.1 - p.1) ≤ (w : ℚ) ∧
      0 ≤ p.2 + t * (q.2 - p.2) ∧ p.2 + t * (q.2 - p.2) ≤ (h : ℚ))

/-- Net change that one `addPolygon` call applies to row `r` of the difference array:
the sum over the row's cells of the new value minus the old value. -/
def rowAppliedSum (pr : Params) (g : List ℤ) (poly : List Vec3) (r : ℕ) : ℤ :=
  ∑ c ∈ Finset.range pr.width,
    ((addPolygon pr g poly).getD (pr.width * r + c) 0 - g.getD (pr.width * r + c) 0)

/-- Row `r` is touched by the digital line traversal of the polygon's edges: some
traversed cell passes the guard `row >= 0 && row < height` with that row. -/
def TouchedRow (pr : Params) (poly : List Vec3) (r : ℕ) : Prop :=
  ∃ cr ∈ visitedCells pr poly, 0 ≤ cr.2 ∧ cr.2 < (pr.height : ℤ) ∧ cr.2.toNat = r

/-- Indices of the difference-array writes `addPolygon` performs for row `r`, read off
its two guarded writes. -/
def rowWrites (w : ℕ) (mn mx : ℕ → ℤ) (r : ℕ) : List ℕ :=
  (if 0 ≤ mn r ∧ mn r < (w : ℤ) then [w * r + (mn r).toNat] else []) ++
    (if 0 ≤ mx r ∧ mx r + 1 < (w : ℤ) then [w * r + (mx r).toNat + 1] else [])

/-- All difference-array write indices of one `addPolygon` call. -/
def addPolygonWrites (pr : Params) (poly : List Vec3) : List ℕ :=
  (List.range pr.height).flatMap fun r =>
    rowWrites pr.width (scanPolygon pr poly).1 (scanPolygon pr poly).2 r

/-- Scratch-buffer row indices (`mincols_` / `maxcols_`) accessed by the edge scan of
one `addPolygon` call. -/
def scratchRows (pr : Params) (poly : List Vec3) : List ℕ :=
  (visitedCells pr poly).filterMap fun cr =>
    if 0 ≤ cr.2 ∧ cr.2 < (pr.height : ℤ) then some cr.2.toNat else none

/-- Concrete grid parameters used by counterexamples and witnesses:
resolution 1, 2×4 grid, costs 100/50, counter ceiling 5. -/
def cexParams : Params := ⟨1, 2, 4, 100, 50, 5⟩

/-- Concrete polygon crossing the left grid boundary in the middle of row 0: its pixel
image is the segment from `(-5/2, 1/2)` to `(3/2, 1/2)`. -/
def cexPolyLeft : List Vec3 := [⟨-9/2, -1/2, 0⟩, ⟨-1/2, -1/2, 0⟩]

/-- Builder state reached by rasterizing `cexPolyLeft` into the occupied accumulator
of a freshly reset builder (as one `add` call does with its occupied area). -/
def cexStateLeft : GridState :=
  ⟨⟨⟨0, 0, 0⟩, ⟨1, 0, 0, 0⟩⟩, 1,
   addPolygon cexParams (List.replicate 8 0) cexPolyLeft,
   List.replicate 8 0, List.replicate 8 0⟩

/-- Concrete polygon whose pixel image is the segment from `(1/2, 1/2)` to
`(9/2, 1/2)`: it starts inside row 0 and runs past the right grid boundary. -/
def cexPolyRight : List Vec3 := [⟨-3/2, -1/2, 0⟩, ⟨5/2, -1/2, 0⟩]

/-! ### Helper lemmas on lists -/

theorem getD_set_eq (l : List ℤ) (i j : ℕ) (v : ℤ) :
    (l.set i v).getD j 0 = if i = j ∧ j < l.length then v else l.getD j 0 := by
  simp only [List.getD_eq_getElem?_getD, List.getElem?_set]
  rcases eq_or_ne i j with rfl | hij
  · by_cases hi : i < l.length
    · simp [hi]
    · simp [hi, List.getElem?_eq_none (le_of_not_lt hi)]
  · simp [hij]

/-! ### Characterization of the imos prefix-sum pass -/

theorem imosRowSteps (base : ℕ) (g : List ℤ) (k : ℕ) :
    ((List.range k).foldl (fun acc c => imosStep acc (base + c)) g).length = g.length ∧
    (∀ j, j ≤ base ∨ base + k < j →
      ((List.range k).foldl (fun acc c => imosStep acc (base + c)) g).getD j 0 =
        g.getD j 0) ∧
    (∀ j, j ≤ k → base + j < g.length →
      ((List.range k).foldl (fun acc c => imosStep acc (base + c)) g).getD (base + j) 0 =
        sumTo g base j) := by
  induction k with
  | zero =>
    refine ⟨rfl, fun j _ => rfl, fun j hj hlt => ?_⟩
    have hj0 : j = 0 := Nat.le_zero.mp hj
    subst hj0
    simp [sumTo]
  | succ k ih =>
    obtain ⟨ihl, ihu, ihc⟩ := ih
    have hfold : (List.range (k + 1)).foldl (fun acc c => imosStep acc (base + c)) g
        = imosStep ((List.range k).foldl (fun acc c => imosStep acc (base + c)) g)
            (base + k) := by
      rw [List.range_succ, List.foldl_append]
      rfl
    set G := (List.range k).foldl (fun acc c => imosStep acc (base + c)) g with hGdef
    rw [hfold]
    simp only [imosStep]
    refine ⟨by simp [ihl], ?_, ?_⟩
    · intro j hj
      rw [getD_set_eq]
      have hne : ¬(base + k + 1 = j ∧ j < G.length) := by
        rintro ⟨rfl, -⟩
        omega
      rw [if_neg hne]
      exact ihu j (by omega)
    · intro j hj hlt
      rcases Nat.lt_or_ge j (k + 1) with hjk | hjk
      · have hjk' : j ≤ k := by omega
        rw [getD_set_eq]
        have hne : ¬(base + k + 1 = base + j ∧ base + j < G.length) := by
          rintro ⟨he, -⟩
          omega
        rw [if_neg hne]
        exact ihc j hjk' hlt
      · have hj1 : j = k + 1 := by omega
        subst hj1
        rw [getD_set_eq]
        have hin : base + k + 1 = base + (k + 1) ∧ base + (k + 1) < G.length := by
          constructor
          · omega
          · rw [ihl]; exact hlt
        rw [if_pos hin]
        have h1 : G.getD (base + k + 1) 0 = g.getD (base + k + 1) 0 :=
          ihu (base + k + 1) (by omega)
        have h2 : G.getD (base + k) 0 = sumTo g base k :=
          ihc k (le_refl k) (by omega)
        have hs : sumTo g base (k + 1) = sumTo g base k + g.getD (base + (k + 1)) 0 := by
          unfold sumTo
          rw [Finset.sum_range_succ]
        rw [h1, h2, hs]
        have hplus : base + (k + 1) = base + k + 1 := by omega
        rw [hplus]
        ring

theorem imosRow_length (w base : ℕ) (g : List ℤ) : (imosRow w base g).length = g.length :=
  (imosRowSteps base g (w - 1)).1

theorem imosRow_getD_outside (w base : ℕ) (g : List ℤ) (j : ℕ)
    (hj : j ≤ base ∨ base + (w - 1) < j) :
    (imosRow w base g).getD j 0 = g.getD j 0 :=
  (imosRowSteps base g (w - 1)).2.1 j hj

theorem imosRow_getD (w base : ℕ) (g : List ℤ) (c : ℕ) (hc : c ≤ w - 1)
    (hlt : base + c < g.length) :
    (imosRow w base g).getD (base + c) 0 = sumTo g base c :=
  (imosRowSteps base g (w - 1)).2.2 c hc hlt

theorem imosPassRows (w : ℕ) (g : List ℤ) (m : ℕ) :
    ((List.range m).foldl (fun acc r => imosRow w (r * w) acc) g).length = g.length ∧
    (∀ j, m * w ≤ j →
      ((List.range m).foldl (fun acc r => imosRow w (r * w) acc) g).getD j 0 =
        g.getD j 0) ∧
    (∀ ρ c, ρ < m → c < w → ρ * w + c < g.length →
      ((List.range m).foldl (fun acc r => imosRow w (r * w) acc) g).getD (ρ * w + c) 0 =
        sumTo g (ρ * w) c) := by
  induction m with
  | zero => exact ⟨rfl, fun j _ => rfl, fun ρ c hρ _ _ => absurd hρ (Nat.not_lt_zero ρ)⟩
  | succ m ih =>
    obtain ⟨ihl, ihu, ihc⟩ := ih
    have hfold : (List.range (m + 1)).foldl (fun acc r => imosRow w (r * w) acc) g
        = imosRow w (m * w)
            ((List.range m).foldl (fun acc r => imosRow w (r * w) acc) g) := by
      rw [List.range_succ, List.foldl_append]
      rfl
    set G := (List.range m).foldl (fun acc r => imosRow w (r * w) acc) g with hGdef
    rw [hfold]
    have hsucc : (m + 1) * w = m * w + w := by rw [Nat.succ_mul]
    refine ⟨by rw [imosRow_length, ihl], ?_, ?_⟩
    · intro j hj
      rw [hsucc] at hj
      have hout : j ≤ m * w ∨ m * w + (w - 1) < j := by omega
      rw [imosRow_getD_outside w (m * w) G j hout]
      exact ihu j (by omega)
    · intro ρ c hρ hc hlt
      rcases Nat.lt_or_ge ρ m with hρm | hρm
      · have hle : ρ * w + c ≤ m * w := by
          have h1 : ρ * w + c < (ρ + 1) * w := by rw [Nat.succ_mul]; omega
          have h2 : (ρ + 1) * w ≤ m * w := Nat.mul_le_mul_right w hρm
          omega
        rw [imosRow_getD_outside w (m * w) G (ρ * w + c) (Or.inl hle)]
        exact ihc ρ c hρm hc hlt
      · have hρm' : ρ = m := by omega
        subst hρm'
        have hGlen : ρ * w + c < G.length := by rw [ihl]; exact hlt
        rw [imosRow_getD w (ρ * w) G c (by omega) hGlen]
        unfold sumTo
        refine Finset.sum_congr rfl fun k hk => ?_
        have hkc : k ≤ c := by
          have := Finset.mem_range.mp hk
          omega
        exact ihu (ρ * w + k) (by omega)

theorem imosPass_length (h w : ℕ) (g : List ℤ) : (imosPass h w g).length = g.length :=
  (imosPassRows w g h).1

theorem imosPass_getD (h w : ℕ) (g : List ℤ) (ρ c : ℕ) (hρ : ρ < h) (hc : c < w)
    (hlt : ρ * w + c < g.length) :
    (imosPass h w g).getD (ρ * w + c) 0 = sumTo g (ρ * w) c :=
  (imosPassRows w g h).2.2 ρ c hρ hc hlt

/-! ### Characterization of the difference-array writes of addPolygon -/

theorem applyRow_length (w : ℕ) (mn mx : ℕ → ℤ) (r : ℕ) (g : List ℤ) :
    (applyRow w mn mx r g).length = g.length := by
  simp only [applyRow]
  split_ifs <;> simp

theorem applyRow_getD (w : ℕ) (mn mx : ℕ → ℤ) (r : ℕ) (g : List ℤ)
    (hlen : w * r + w ≤ g.length) (j : ℕ) :
    (applyRow w mn mx r g).getD j 0 =
      g.getD j 0 +
        (if w * r ≤ j ∧ j < w * r + w then rowDelta w mn mx r (j - w * r) else 0) := by
  by_cases h1 : 0 ≤ mn r ∧ mn r < (w : ℤ)
  · by_cases h2 : 0 ≤ mx r ∧ mx r + 1 < (w : ℤ)
    · have e : applyRow w mn mx r g =
          (g.set (w * r + (mn r).toNat) (g.getD (w * r + (mn r).toNat) 0 + 1)).set
            (w * r + (mx r).toNat + 1)
            ((g.set (w * r + (mn r).toNat) (g.getD (w * r + (mn r).toNat) 0 + 1)).getD
              (w * r + (mx r).toNat + 1) 0 - 1) := by
        simp [applyRow, h1, h2]
      rw [e]
      simp only [getD_set_eq, List.length_set]
      set a := w * r + (mn r).toNat with hadef
      set b := w * r + (mx r).toNat + 1 with hbdef
      by_cases hbj : b = j
      · subst hbj
        rw [if_pos ⟨rfl, by omega⟩]
        by_cases hab : a = b
        · rw [if_pos ⟨hab, by omega⟩, hab]
          rw [if_pos (⟨by omega, by omega⟩ : w * r ≤ b ∧ b < w * r + w)]
          unfold rowDelta
          split_ifs <;> omega
        · rw [if_neg (fun hc => hab hc.1)]
          rw [if_pos (⟨by omega, by omega⟩ : w * r ≤ b ∧ b < w * r + w)]
          unfold rowDelta
          split_ifs <;> omega
      · rw [if_neg (fun hc => hbj hc.1)]
        by_cases haj : a = j
        · subst haj
          rw [if_pos ⟨rfl, by omega⟩]
          rw [if_pos (⟨by omega, by omega⟩ : w * r ≤ a ∧ a < w * r + w)]
          unfold rowDelta
          split_ifs <;> omega
        · rw [if_neg (fun hc => haj hc.1)]
          unfold rowDelta
          split_ifs <;> omega
    · have e : applyRow w mn mx r g =
          g.set (w * r + (mn r).toNat) (g.getD (w * r + (mn r).toNat) 0 + 1) := by
        simp [applyRow, h1, h2]
      rw [e]
      simp only [getD_set_eq, List.length_set]
      set a := w * r + (mn r).toNat with hadef
      by_cases haj : a = j
      · subst haj
        rw [if_pos ⟨rfl, by omega⟩]
        rw [if_pos (⟨by omega, by omega⟩ : w * r ≤ a ∧ a < w * r + w)]
        unfold rowDelta
        split_ifs <;> omega
      · rw [if_neg (fun hc => haj hc.1)]
        unfold rowDelta
        split_ifs <;> omega
  · by_cases h2 : 0 ≤ mx r ∧ mx r + 1 < (w : ℤ)
    · have e : applyRow w mn mx r g =
          g.set (w * r + (mx r).toNat + 1) (g.getD (w * r + (mx r).toNat + 1) 0 - 1) := by
        simp [applyRow, h1, h2]
      rw [e]
      simp only [getD_set_eq, List.length_set]
      set b := w * r + (mx r).toNat + 1 with hbdef
      by_cases hbj : b = j
      · subst hbj
        rw [if_pos ⟨rfl, by omega⟩]
        rw [if_pos (⟨by omega, by omega⟩ : w * r ≤ b ∧ b < w * r + w)]
        unfold rowDelta
        split_ifs <;> omega
      · rw [if_neg (fun hc => hbj hc.1)]
        unfold rowDelta
        split_ifs <;> omega
    · have e : applyRow w mn mx r g = g := by
        simp [applyRow, h1, h2]
      rw [e]
      unfold rowDelta
      split_ifs <;> omega

theorem foldl_applyRow_length (w : ℕ) (mn mx : ℕ → ℤ) (rs : List ℕ) (g : List ℤ) :
    (rs.foldl (fun acc r => applyRow w mn mx r acc) g).length = g.length := by
  induction rs generalizing g with
  | nil => rfl
  | cons r rs ih => rw [List.foldl_cons, ih, applyRow_length]

theorem foldl_applyRow_getD (w : ℕ) (mn mx : ℕ → ℤ) (g : List ℤ) (h m : ℕ)
    (hm : m ≤ h) (hg : g.length = h * w) (j : ℕ) :
    ((List.range m).foldl (fun acc r => applyRow w mn mx r acc) g).getD j 0 =
      g.getD j 0 +
        (if j < w * m then rowDelta w mn mx (j / w) (j % w) else 0) := by
  induction m with
  | zero => simp
  | succ m ih =>
    have hfold : (List.range (m + 1)).foldl (fun acc r => applyRow w mn mx r acc) g
        = applyRow w mn mx m
            ((List.range m).foldl (fun acc r => applyRow w mn mx r acc) g) := by
      rw [List.range_succ, List.foldl_append]
      rfl
    set G := (List.range m).foldl (fun acc r => applyRow w mn mx r acc) g with hGdef
    have hGlen : G.length = h * w := by rw [hGdef, foldl_applyRow_length, hg]
    have hrow : w * m + w ≤ G.length := by
      rw [hGlen]
      calc w * m + w = w * (m + 1) := by rw [Nat.mul_succ]
        _ ≤ w * h := Nat.mul_le_mul_left w hm
        _ = h * w := Nat.mul_comm w h
    rw [hfold, applyRow_getD w mn mx m G hrow j, ih (by omega)]
    have hmul : w * (m + 1) = w * m + w := Nat.mul_succ w m
    rcases Nat.lt_or_ge j (w * m) with hj | hj
    · rw [if_pos hj, if_pos (by omega : j < w * (m + 1)),
        if_neg (by omega : ¬(w * m ≤ j ∧ j < w * m + w))]
      ring
    · rcases Nat.lt_or_ge j (w * m + w) with hj2 | hj2
      · have hw : 0 < w := by omega
        rw [if_neg (by omega : ¬ j < w * m), if_pos ⟨hj, hj2⟩,
          if_pos (by omega : j < w * (m + 1))]
        have hc : j = w * m + (j - w * m) := by omega
        have hdiv : j / w = m := by
          rw [hc, Nat.mul_add_div hw, Nat.div_eq_of_lt (by omega)]
          omega
        have hmod : j % w = j - w * m := by
          conv_lhs => rw [hc]
          rw [Nat.mul_add_mod]
          exact Nat.mod_eq_of_lt (by omega)
        rw [hdiv, hmod]
        ring
      · rw [if_neg (by omega : ¬ j < w * m),
          if_neg (by omega : ¬(w * m ≤ j ∧ j < w * m + w)),
          if_neg (by omega : ¬ j < w * (m + 1))]
        ring

theorem addPolygon_length (pr : Params) (g : List ℤ) (poly : List Vec3) :
    (addPolygon pr g poly).length = g.length := by
  simp only [addPolygon]
  exact foldl_applyRow_length _ _ _ _ _

/-- Pointwise additivity of `addPolygon`: one call adds `polyDelta` to the difference
array, independently of the array's current contents. -/
theorem addPolygon_getD (pr : Params) (g : List ℤ) (poly : List Vec3)
    (hg : g.length = pr.height * pr.width) (j : ℕ) :
    (addPolygon pr g poly).getD j 0 = g.getD j 0 + polyDelta pr poly j := by
  simp only [addPolygon, polyDelta]
  rw [foldl_applyRow_getD pr.width (scanPolygon pr poly).1 (scanPolygon pr poly).2 g
    pr.height pr.height (le_refl _) (by rw [hg, Nat.mul_comm]) j]
  rw [Nat.mul_comm pr.width pr.height]

/-! ### Soundness of the modelled digital line traversal -/

theorem slab_sound (a b lo hi l u t : ℚ) (hlohi : lo ≤ hi)
    (hs : slab a b lo hi = some (l, u)) (ht1 : l ≤ t) (ht2 : t ≤ u) :
    lo ≤ a + t * (b - a) ∧ a + t * (b - a) ≤ hi := by
  unfold slab at hs
  by_cases hab : a = b
  · rw [if_pos hab] at hs
    by_cases hin : lo ≤ a ∧ a ≤ hi
    · rw [if_pos hin] at hs
      subst hab
      simpa using hin
    · rw [if_neg hin] at hs
      exact absurd hs (by simp)
  · rw [if_neg hab] at hs
    have hd : b - a ≠ 0 := sub_ne_zero.mpr (Ne.symm hab)
    obtain ⟨hl, hu⟩ : min ((lo - a) / (b - a)) ((hi - a) / (b - a)) = l ∧
        max ((lo - a) / (b - a)) ((hi - a) / (b - a)) = u := by
      have := Option.some.inj hs
      exact ⟨congrArg Prod.fst this, congrArg Prod.snd this⟩
    set L := (lo - a) / (b - a) with hLdef
    set U := (hi - a) / (b - a) with hUdef
    have hLd : L * (b - a) = lo - a := div_mul_cancel₀ _ hd
    have hUd : U * (b - a) = hi - a := div_mul_cancel₀ _ hd
    have hprod : (t - L) * (t - U) ≤ 0 := by
      rcases le_total L U with h | h
      · have hL : L ≤ t := by rw [← hl] at ht1; exact le_trans (by simp [min_eq_left h]) ht1
        have hU : t ≤ U := by rw [← hu] at ht2; exact le_trans ht2 (by simp [max_eq_right h])
        nlinarith
      · have hU : U ≤ t := by rw [← hl] at ht1; exact le_trans (by simp [min_eq_right h]) ht1
        have hL : t ≤ L := by rw [← hu] at ht2; exact le_trans ht2 (by simp [max_eq_left h])
        nlinarith
    have hx1 : a + t * (b - a) - lo = (b - a) * (t - L) := by linear_combination hLd
    have hx2 : a + t * (b - a) - hi = (b - a) * (t - U) := by linear_combination hUd
    have hle : (a + t * (b - a) - lo) * (a + t * (b - a) - hi) ≤ 0 := by
      calc (a + t * (b - a) - lo) * (a + t * (b - a) - hi)
          = (b - a) ^ 2 * ((t - L) * (t - U)) := by rw [hx1, hx2]; ring
        _ ≤ 0 := by nlinarith [sq_nonneg (b - a)]
    constructor <;> nlinarith [hle, hlohi]

theorem segMeetsBox_sound {px py qx qy : ℚ} {c r : ℤ}
    (h : segMeetsBox px py qx qy c r = true) :
    ∃ t : ℚ, 0 ≤ t ∧ t ≤ 1 ∧
      (c : ℚ) ≤ px + t * (qx - px) ∧ px + t * (qx - px) ≤ (c : ℚ) + 1 ∧
      (r : ℚ) ≤ py + t * (qy - py) ∧ py + t * (qy - py) ≤ (r : ℚ) + 1 := by
  unfold segMeetsBox at h
  cases hx : slab px qx (c : ℚ) ((c : ℚ) + 1) with
  | none => rw [hx] at h; exact absurd h (by simp)
  | some lu1 =>
    cases hy : slab py qy (r : ℚ) ((r : ℚ) + 1) with
    | none => rw [hx, hy] at h; obtain ⟨l1, u1⟩ := lu1; exact absurd h (by simp)
    | some lu2 =>
      obtain ⟨l1, u1⟩ := lu1
      obtain ⟨l2, u2⟩ := lu2
      rw [hx, hy] at h
      simp only [decide_eq_true_eq] at h
      refine ⟨max 0 (max l1 l2), le_max_left _ _,
        le_trans h (min_le_left _ _), ?_, ?_, ?_, ?_⟩
      · exact (slab_sound px qx (c : ℚ) ((c : ℚ) + 1) l1 u1 _ (by linarith) hx
          (le_trans (le_max_left _ _) (le_max_right _ _))
          (le_trans h (le_trans (min_le_right _ _) (min_le_left _ _)))).1
      · exact (slab_sound px qx (c : ℚ) ((c : ℚ) + 1) l1 u1 _ (by linarith) hx
          (le_trans (le_max_left _ _) (le_max_right _ _))
          (le_trans h (le_trans (min_le_right _ _) (min_le_left _ _)))).2
      · exact (slab_sound py qy (r : ℚ) ((r : ℚ) + 1) l2 u2 _ (by linarith) hy
          (le_trans (le_max_right _ _) (le_max_right _ _))
          (le_trans h (le_trans (min_le_right _ _) (min_le_right _ _)))).1
      · exact (slab_sound py qy (r : ℚ) ((r : ℚ) + 1) l2 u2 _ (by linarith) hy
          (le_trans (le_max_right _ _) (le_max_right _ _))
          (le_trans h (le_trans (min_le_right _ _) (min_le_right _ _)))).2

theorem GridTraversal_sound (px py qx qy : ℚ) (cr : ℤ × ℤ)
    (h : cr ∈ GridTraversal px py qx qy) :
    segMeetsBox px py qx qy cr.1 cr.2 = true := by
  unfold GridTraversal at h
  rw [List.mem_flatMap] at h
  obtain ⟨c, -, hc⟩ := h
  rw [List.mem_filterMap] at hc
  obtain ⟨r, -, hr⟩ := hc
  split_ifs at hr with hb
  cases Option.some.inj hr
  exact hb

/-! ### The scan invariant for out-of-grid polygons -/

theorem scanStep_fold_inv (h w : ℕ) (cells : List (ℤ × ℤ))
    (hc : ∀ cr ∈ cells, 0 ≤ cr.2 → cr.2 < (h : ℤ) → (cr.1 < 0 ∨ (w : ℤ) ≤ cr.1))
    (st : (ℕ → ℤ) × (ℕ → ℤ))
    (hmn : ∀ ρ, st.1 ρ < 0 ∨ (w : ℤ) ≤ st.1 ρ)
    (hmx : ∀ ρ, st.2 ρ < 0 ∨ (w : ℤ) ≤ st.2 ρ) :
    (∀ ρ, (cells.foldl (scanStep h) st).1 ρ < 0 ∨
      (w : ℤ) ≤ (cells.foldl (scanStep h) st).1 ρ) ∧
    (∀ ρ, (cells.foldl (scanStep h) st).2 ρ < 0 ∨
      (w : ℤ) ≤ (cells.foldl (scanStep h) st).2 ρ) := by
  induction cells generalizing st with
  | nil => exact ⟨hmn, hmx⟩
  | cons cell cells ih =>
    rw [List.foldl_cons]
    refine ih (fun cr hcr h1 h2 => hc cr (List.mem_cons_of_mem _ hcr) h1 h2) _ ?_ ?_
    · intro ρ
      unfold scanStep
      split_ifs with hg
      · simp only
        by_cases he : ρ = cell.2.toNat
        · subst he
          rw [Function.update_same]
          have h1 := hc cell (List.mem_cons_self _ _) hg.1 hg.2
          have h2 := hmn cell.2.toNat
          omega
        · rw [Function.update_noteq he]
          exact hmn ρ
      · exact hmn ρ
    · intro ρ
      unfold scanStep
      split_ifs with hg
      · simp only
        by_cases he : ρ = cell.2.toNat
        · subst he
          rw [Function.update_same]
          have h1 := hc cell (List.mem_cons_self _ _) hg.1 hg.2
          have h2 := hmx cell.2.toNat
          omega
        · rw [Function.update_noteq he]
          exact hmx ρ
      · exact hmx ρ

theorem scanPolygon_outside (pr : Params) (poly : List Vec3)
    (hout : ∀ cr ∈ visitedCells pr poly, 0 ≤ cr.2 → cr.2 < (pr.height : ℤ) →
      (cr.1 < 0 ∨ (pr.width : ℤ) ≤ cr.1)) :
    (∀ ρ, (scanPolygon pr poly).1 ρ < 0 ∨ (pr.width : ℤ) ≤ (scanPolygon pr poly).1 ρ) ∧
    (∀ ρ, (scanPolygon pr poly).2 ρ < 0 ∨ (pr.width : ℤ) ≤ (scanPolygon pr poly).2 ρ) :=
  scanStep_fold_inv pr.height pr.width _ hout _
    (fun _ => Or.inr (le_refl _)) (fun _ => Or.inl (by norm_num))

theorem applyRow_id (w : ℕ) (mn mx : ℕ → ℤ) (r : ℕ) (g : List ℤ)
    (h1 : ¬(0 ≤ mn r ∧ mn r < (w : ℤ))) (h2 : ¬(0 ≤ mx r ∧ mx r + 1 < (w : ℤ))) :
    applyRow w mn mx r g = g := by
  simp [applyRow, h1, h2]

theorem addPolygon_id (pr : Params) (g : List ℤ) (poly : List Vec3)
    (hmn : ∀ ρ, (scanPolygon pr poly).1 ρ < 0 ∨ (pr.width : ℤ) ≤ (scanPolygon pr poly).1 ρ)
    (hmx : ∀ ρ, (scanPolygon pr poly).2 ρ < 0 ∨ (pr.width : ℤ) ≤ (scanPolygon pr poly).2 ρ) :
    addPolygon pr g poly = g := by
  simp only [addPolygon]
  have key : ∀ (rs : List ℕ) (g : List ℤ),
      rs.foldl (fun acc r =>
        applyRow pr.width (scanPolygon pr poly).1 (scanPolygon pr poly).2 r acc) g = g := by
    intro rs
    induction rs with
    | nil => intro g; rfl
    | cons r rs ih =>
      intro g
      rw [List.foldl_cons,
        applyRow_id _ _ _ r g (by have := hmn r; omega) (by have := hmx r; omega), ih]
  exact key _ g

/-- C7: a polygon whose pixel-space image lies entirely outside the grid rectangle
contributes no occupied or invisible coverage: `addPolygon` leaves the difference
array untouched, and the subsequent `build()` outputs exactly what it would have
output had the polygon never been added. -/
theorem addPolygon_outside_no_contribution (pr : Params) (g : List ℤ)
    (poly : List Vec3) (s : GridState)
    (hout : ∀ i < poly.length, segOutsideGrid pr.width pr.height
      (transformToPixel pr (poly.getD i ⟨0, 0, 0⟩))
      (transformToPixel pr (poly.getD ((i + 1) % poly.length) ⟨0, 0, 0⟩))) :
    addPolygon pr g poly = g ∧
    build pr { s with occupied_grid := addPolygon pr s.occupied_grid poly } = build pr s ∧
    build pr { s with invisible_grid := addPolygon pr s.invisible_grid poly } = build pr s := by
  have hcells : ∀ cr ∈ visitedCells pr poly, 0 ≤ cr.2 → cr.2 < (pr.height : ℤ) →
      (cr.1 < 0 ∨ (pr.width : ℤ) ≤ cr.1) := by
    intro cr hcr hr0 hrh
    simp only [visitedCells, List.mem_flatMap, List.mem_range] at hcr
    obtain ⟨i, hil, hcr2⟩ := hcr
    have hb := GridTraversal_sound _ _ _ _ _ hcr2
    by_contra hcol
    push_neg at hcol
    obtain ⟨hc0, hcw⟩ := hcol
    obtain ⟨t, ht0, ht1, hx1, hx2, hy1, hy2⟩ := segMeetsBox_sound hb
    refine hout i hil t ht0 ht1 ⟨?_, ?_, ?_, ?_⟩
    · have : (0 : ℚ) ≤ (cr.1 : ℚ) := by exact_mod_cast hc0
      linarith
    · have : (cr.1 : ℚ) + 1 ≤ (pr.width : ℚ) := by exact_mod_cast hcw
      linarith
    · have : (0 : ℚ) ≤ (cr.2 : ℚ) := by exact_mod_cast hr0
      linarith
    · have : (cr.2 : ℚ) + 1 ≤ (pr.height : ℚ) := by exact_mod_cast hrh
      linarith
  have hscan := scanPolygon_outside pr poly hcells
  refine ⟨addPolygon_id pr g poly hscan.1 hscan.2, ?_, ?_⟩ <;>
    rw [addPolygon_id pr _ poly hscan.1 hscan.2]

/-- Witness for C7: a 2×2 grid with resolution 1 and a single-vertex polygon at
`(-5, 0)`, whose pixel image `(-4, 1)` is entirely to the left of the grid. -/
theorem addPolygon_outside_no_contribution_witness :
    (∀ i < ([⟨-5, 0, 0⟩] : List Vec3).length,
      segOutsideGrid (Params.mk 1 2 2 100 50 5).width (Params.mk 1 2 2 100 50 5).height
        (transformToPixel (Params.mk 1 2 2 100 50 5)
          (([⟨-5, 0, 0⟩] : List Vec3).getD i ⟨0, 0, 0⟩))
        (transformToPixel (Params.mk 1 2 2 100 50 5)
          (([⟨-5, 0, 0⟩] : List Vec3).getD
            ((i + 1) % ([⟨-5, 0, 0⟩] : List Vec3).length) ⟨0, 0, 0⟩))) ∧
    (addPolygon (Params.mk 1 2 2 100 50 5)
        (initState (Params.mk 1 2 2 100 50 5)).occupied_grid [⟨-5, 0, 0⟩] =
      (initState (Params.mk 1 2 2 100 50 5)).occupied_grid ∧
     build (Params.mk 1 2 2 100 50 5)
        { initState (Params.mk 1 2 2 100 50 5) with
          occupied_grid := addPolygon (Params.mk 1 2 2 100 50 5)
            (initState (Params.mk 1 2 2 100 50 5)).occupied_grid [⟨-5, 0, 0⟩] } =
      build (Params.mk 1 2 2 100 50 5) (initState (Params.mk 1 2 2 100 50 5)) ∧
     build (Params.mk 1 2 2 100 50 5)
        { initState (Params.mk 1 2 2 100 50 5) with
          invisible_grid := addPolygon (Params.mk 1 2 2 100 50 5)
            (initState (Params.mk 1 2 2 100 50 5)).invisible_grid [⟨-5, 0, 0⟩] } =
      build (Params.mk 1 2 2 100 50 5) (initState (Params.mk 1 2 2 100 50 5))) := by
  have hout : ∀ i < ([⟨-5, 0, 0⟩] : List Vec3).length,
      segOutsideGrid (Params.mk 1 2 2 100 50 5).width (Params.mk 1 2 2 100 50 5).height
        (transformToPixel (Params.mk 1 2 2 100 50 5)
          (([⟨-5, 0, 0⟩] : List Vec3).getD i ⟨0, 0, 0⟩))
        (transformToPixel (Params.mk 1 2 2 100 50 5)
          (([⟨-5, 0, 0⟩] : List Vec3).getD
            ((i + 1) % ([⟨-5, 0, 0⟩] : List Vec3).length) ⟨0, 0, 0⟩)) := by
    intro i hi
    have hi0 : i = 0 := by
      simp only [List.length_singleton] at hi
      omega
    subst hi0
    intro t ht0 ht1 hcon
    obtain ⟨hx0, -, -, -⟩ := hcon
    norm_num [transformToPixel] at hx0
  exact ⟨hout, addPolygon_outside_no_contribution _ _ _ _ hout⟩

/-! ### Characterization of add / runAdds -/

theorem eq_of_getD (l₁ l₂ : List ℤ) (hl : l₁.length = l₂.length)
    (h : ∀ j, l₁.getD j 0 = l₂.getD j 0) : l₁ = l₂ := by
  apply List.ext_getElem hl
  intro n h1 h2
  have hn := h n
  rw [List.getD_eq_getElem?_getD, List.getD_eq_getElem?_getD,
    List.getElem?_eq_getElem h1, List.getElem?_eq_getElem h2] at hn
  simpa using hn

theorem add_ok (pr : Params) (invf : List Vec3 → List Vec3) (hull : List Vec3)
    (s : GridState) (h : s.primitive_count ≠ pr.count_max) :
    add pr invf hull s = .ok
      { s with
        primitive_count := s.primitive_count + 1
        invisible_grid := addPolygon pr s.invisible_grid
          (invf (makeOccupiedArea s.origin hull))
        occupied_grid := addPolygon pr s.occupied_grid (makeOccupiedArea s.origin hull) } := by
  simp [add, h]

theorem runAdds_cons_ok (pr : Params) (invf : List Vec3 → List Vec3)
    (hl : List Vec3) (hulls : List (List Vec3)) (s s' : GridState)
    (h : add pr invf hl s = .ok s') :
    runAdds pr invf (hl :: hulls) s = runAdds pr invf hulls s' := by
  simp only [runAdds, List.foldl_cons]
  rw [show Except.bind (Except.ok s) (add pr invf hl) = Except.ok s' from h]

theorem runAdds_ok (pr : Params) (invf : List Vec3 → List Vec3)
    (hulls : List (List Vec3)) (s : GridState)
    (hocc : s.occupied_grid.length = pr.height * pr.width)
    (hinv : s.invisible_grid.length = pr.height * pr.width)
    (hcnt : s.primitive_count + hulls.length ≤ pr.count_max) :
    ∃ s2, runAdds pr invf hulls s = .ok s2 ∧
      s2.origin = s.origin ∧
      s2.values = s.values ∧
      s2.primitive_count = s.primitive_count + hulls.length ∧
      s2.occupied_grid.length = pr.height * pr.width ∧
      s2.invisible_grid.length = pr.height * pr.width ∧
      (∀ j, s2.occupied_grid.getD j 0 = s.occupied_grid.getD j 0 +
        (hulls.map fun hl => polyDelta pr (makeOccupiedArea s.origin hl) j).sum) ∧
      (∀ j, s2.invisible_grid.getD j 0 = s.invisible_grid.getD j 0 +
        (hulls.map fun hl => polyDelta pr (invf (makeOccupiedArea s.origin hl)) j).sum) := by
  induction hulls generalizing s with
  | nil =>
    exact ⟨s, rfl, rfl, rfl, by simp, hocc, hinv, by simp, by simp⟩
  | cons hl hulls ih =>
    have hne : s.primitive_count ≠ pr.count_max := by
      simp only [List.length_cons] at hcnt
      omega
    have hadd := add_ok pr invf hl s hne
    set s' : GridState :=
      { s with
        primitive_count := s.primitive_count + 1
        invisible_grid := addPolygon pr s.invisible_grid
          (invf (makeOccupiedArea s.origin hl))
        occupied_grid := addPolygon pr s.occupied_grid (makeOccupiedArea s.origin hl) }
      with hs'
    have hocc' : s'.occupied_grid.length = pr.height * pr.width := by
      rw [hs']
      simp only
      rw [addPolygon_length]
      exact hocc
    have hinv' : s'.invisible_grid.length = pr.height * pr.width := by
      rw [hs']
      simp only
      rw [addPolygon_length]
      exact hinv
    have hcnt' : s'.primitive_count + hulls.length ≤ pr.count_max := by
      rw [hs']
      simp only [List.length_cons] at hcnt
      simp only
      omega
    obtain ⟨s2, he, ho, hv, hc, hol, hil, hog, hig⟩ := ih s' hocc' hinv' hcnt'
    have horig : s'.origin = s.origin := by rw [hs']
    refine ⟨s2, ?_, ?_, ?_, ?_, hol, hil, ?_, ?_⟩
    · rw [runAdds_cons_ok pr invf hl hulls s s' hadd]
      exact he
    · rw [ho, horig]
    · rw [hv, hs']
    · rw [hc, hs']
      simp only [List.length_cons]
      omega
    · intro j
      rw [hog j, horig]
      have hsocc : s'.occupied_grid.getD j 0 =
          s.occupied_grid.getD j 0 + polyDelta pr (makeOccupiedArea s.origin hl) j := by
        rw [hs']
        simp only
        exact addPolygon_getD pr s.occupied_grid (makeOccupiedArea s.origin hl) hocc j
      rw [hsocc, List.map_cons, List.sum_cons]
      ring
    · intro j
      rw [hig j, horig]
      have hsinv : s'.invisible_grid.getD j 0 =
          s.invisible_grid.getD j 0 +
            polyDelta pr (invf (makeOccupiedArea s.origin hl)) j := by
        rw [hs']
        simp only
        exact addPolygon_getD pr s.invisible_grid
          (invf (makeOccupiedArea s.origin hl)) hinv j
      rw [hsinv, List.map_cons, List.sum_cons]
      ring

/-! ### Helper lemmas on the min/max selections -/

theorem selMinBy_mem (f : ℚ → ℚ) (a : ℚ) (l : List ℚ) : selMinBy f a l ∈ a :: l := by
  induction l generalizing a with
  | nil => simp [selMinBy]
  | cons b t ih =>
    have hfold : selMinBy f a (b :: t) = selMinBy f (if f b < f a then b else a) t := rfl
    rw [hfold]
    by_cases hc : f b < f a
    · rw [if_pos hc]
      rcases List.mem_cons.mp (ih b) with h1 | h1
      · rw [h1]
        exact List.mem_cons_of_mem _ (List.mem_cons_self _ _)
      · exact List.mem_cons_of_mem _ (List.mem_cons_of_mem _ h1)
    · rw [if_neg hc]
      rcases List.mem_cons.mp (ih a) with h1 | h1
      · rw [h1]
        exact List.mem_cons_self _ _
      · exact List.mem_cons_of_mem _ (List.mem_cons_of_mem _ h1)

theorem selMaxBy_mem (f : ℚ → ℚ) (a : ℚ) (l : List ℚ) : selMaxBy f a l ∈ a :: l := by
  induction l generalizing a with
  | nil => simp [selMaxBy]
  | cons b t ih =>
    have hfold : selMaxBy f a (b :: t) = selMaxBy f (if f a ≤ f b then b else a) t := rfl
    rw [hfold]
    by_cases hc : f a ≤ f b
    · rw [if_pos hc]
      rcases List.mem_cons.mp (ih b) with h1 | h1
      · rw [h1]
        exact List.mem_cons_of_mem _ (List.mem_cons_self _ _)
      · exact List.mem_cons_of_mem _ (List.mem_cons_of_mem _ h1)
    · rw [if_neg hc]
      rcases List.mem_cons.mp (ih a) with h1 | h1
      · rw [h1]
        exact List.mem_cons_self _ _
      · exact List.mem_cons_of_mem _ (List.mem_cons_of_mem _ h1)

theorem selMinBy_le (f : ℚ → ℚ) (a : ℚ) (l : List ℚ) :
    ∀ y ∈ a :: l, f (selMinBy f a l) ≤ f y := by
  induction l generalizing a with
  | nil =>
    intro y hy
    simp only [List.mem_singleton] at hy
    subst hy
    simp [selMinBy]
  | cons b t ih =>
    intro y hy
    have hfold : selMinBy f a (b :: t) = selMinBy f (if f b < f a then b else a) t := rfl
    have hma : f (if f b < f a then b else a) ≤ f a := by
      by_cases hc : f b < f a <;> simp [hc] <;> linarith
    have hmb : f (if f b < f a then b else a) ≤ f b := by
      by_cases hc : f b < f a <;> simp [hc] <;> linarith
    have hsm : f (selMinBy f (if f b < f a then b else a) t) ≤
        f (if f b < f a then b else a) :=
      ih _ _ (List.mem_cons_self _ _)
    rw [hfold]
    rcases List.mem_cons.mp hy with rfl | hy2
    · exact le_trans hsm hma
    rcases List.mem_cons.mp hy2 with rfl | hy3
    · exact le_trans hsm hmb
    · exact ih _ _ (List.mem_cons_of_mem _ hy3)

theorem selMaxBy_ge (f : ℚ → ℚ) (a : ℚ) (l : List ℚ) :
    ∀ y ∈ a :: l, f y ≤ f (selMaxBy f a l) := by
  induction l generalizing a with
  | nil =>
    intro y hy
    simp only [List.mem_singleton] at hy
    subst hy
    simp [selMaxBy]
  | cons b t ih =>
    intro y hy
    have hfold : selMaxBy f a (b :: t) = selMaxBy f (if f a ≤ f b then b else a) t := rfl
    have hma : f a ≤ f (if f a ≤ f b then b else a) := by
      by_cases hc : f a ≤ f b <;> simp [hc]
    have hmb : f b ≤ f (if f a ≤ f b then b else a) := by
      by_cases hc : f a ≤ f b <;> simp [hc] <;> linarith
    have hsm : f (if f a ≤ f b then b else a) ≤
        f (selMaxBy f (if f a ≤ f b then b else a) t) :=
      ih _ _ (List.mem_cons_self _ _)
    rw [hfold]
    rcases List.mem_cons.mp hy with rfl | hy2
    · exact le_trans hma hsm
    rcases List.mem_cons.mp hy2 with rfl | hy3
    · exact le_trans hmb hsm
    · exact ih _ _ (List.mem_cons_of_mem _ hy3)

theorem selectWedge_eq (Pi a : ℚ) (l : List ℚ)
    (hspan : selMaxBy id a l - selMinBy id a l > Pi)
    (hgt : selMinBy (adjustTheta Pi) a l > selMaxBy (adjustTheta Pi) a l) :
    selectWedge Pi a l =
      (selMinBy (adjustTheta Pi) a l, selMaxBy (adjustTheta Pi) a l + 2 * Pi) := by
  simp [selectWedge, hspan, hgt]

/-! ### Claim theorems (first batch) -/

/-- C6: for every world point `p`, `transformToGrid p` equals `p` rotated by the
conjugate (inverse) of the stored origin's orientation — the sandwich rotation
`q* ⊗ (0,p) ⊗ q` — minus the origin's raw, un-rotated position.  The hypothesis is
that the orientation is a unit quaternion, under which Eigen's quaternion-vector
product formula agrees with the sandwich product. -/
theorem transformToGrid_conjugate_minus_raw_origin (origin : Pose) (p : Vec3)
    (h : normSq origin.orientation = 1) :
    transformToGrid origin p = transformToGridSpec origin p := by
  obtain ⟨⟨ox, oy, oz⟩, ⟨qw, qx, qy, qz⟩⟩ := origin
  simp only [normSq] at h
  simp only [transformToGrid, transformToGridSpec, eigenRotate, quatRotate, quatMul,
    qconj, qvec, cross, vadd, vsub, smul]
  ext
  · simp only
    linear_combination (-p.x) * h
  · simp only
    linear_combination (-p.y) * h
  · simp only
    linear_combination (-p.z) * h

/-- Witness for C6 at a concrete unit quaternion and concrete points. -/
theorem transformToGrid_conjugate_minus_raw_origin_witness :
    normSq ⟨1/2, 1/2, 1/2, 1/2⟩ = 1 ∧
    transformToGrid ⟨⟨1, 2, 3⟩, ⟨1/2, 1/2, 1/2, 1/2⟩⟩ ⟨4, 5, 6⟩ =
      transformToGridSpec ⟨⟨1, 2, 3⟩, ⟨1/2, 1/2, 1/2, 1/2⟩⟩ ⟨4, 5, 6⟩ :=
  ⟨by norm_num [normSq],
   transformToGrid_conjugate_minus_raw_origin _ _ (by norm_num [normSq])⟩

/-- C9: `reset(origin)` stores the new sensor pose, sets the primitive counter to 0,
sets every element of both accumulator arrays to 0, leaves the `values` array
unchanged, and leaves the lengths of all three arrays unchanged. -/
theorem reset_frame_effect (o : Pose) (s : GridState) :
    (reset o s).origin = o ∧
    (reset o s).primitive_count = 0 ∧
    (∀ i, (reset o s).occupied_grid.getD i 0 = 0) ∧
    (∀ i, (reset o s).invisible_grid.getD i 0 = 0) ∧
    (reset o s).values = s.values ∧
    (reset o s).occupied_grid.length = s.occupied_grid.length ∧
    (reset o s).invisible_grid.length = s.invisible_grid.length ∧
    (reset o s).values.length = s.values.length := by
  refine ⟨rfl, rfl, ?_, ?_, rfl, by simp [reset], by simp [reset], rfl⟩ <;>
    intro i <;>
    simp only [reset, List.getD_eq_getElem?_getD, List.getElem?_replicate] <;>
    split <;> rfl

/-- C4: when the naive bearing span exceeds π, `makeInvisibleArea` re-selects the
bearing pair using bearings remapped into `[0, 2π)` (negatives shifted by `+2π`), and
this choice is the true minimal angular wedge: writing `(minang, maxang)` for the
selected wedge after the final `+2π` fix-up, `minang` and `maxang` are attained
remapped bearings, the wedge contains every remapped bearing, and its width is below
π — not the long-way-around wedge.  Bearings are abstracted as rationals in
`(-Pi, Pi]` (the range of `atan2`), `Pi` standing for the transcendental `M_PI`; the
last hypothesis states that all bearing directions fit in an open half circle, i.e.
that a minimal wedge exists. -/
theorem selectWedge_picks_minimal_wedge (Pi a : ℚ) (l : List ℚ)
    (hrange : ∀ θ ∈ a :: l, -Pi < θ ∧ θ ≤ Pi)
    (hspan : selMaxBy id a l - selMinBy id a l > Pi)
    (hhalf : ∀ θ₁ ∈ a :: l, ∀ θ₂ ∈ a :: l,
      adjustTheta Pi θ₁ - adjustTheta Pi θ₂ < Pi) :
    (∃ θ ∈ a :: l, adjustTheta Pi θ = (selectWedge Pi a l).1) ∧
    (∃ θ ∈ a :: l, adjustTheta Pi θ = (selectWedge Pi a l).2) ∧
    (∀ θ ∈ a :: l, (selectWedge Pi a l).1 ≤ adjustTheta Pi θ ∧
      adjustTheta Pi θ ≤ (selectWedge Pi a l).2) ∧
    (selectWedge Pi a l).2 - (selectWedge Pi a l).1 < Pi := by
  have hm0 := selMinBy_mem id a l
  have hM0 := selMaxBy_mem id a l
  have hm0r := hrange _ hm0
  have hM0r := hrange _ hM0
  -- the naive span forces the naive minimum below 0 and the naive maximum above 0
  have hm0neg : selMinBy id a l < 0 := by
    have := hM0r.2
    simp only [id] at this hspan ⊢
    linarith
  have hM0pos : 0 < selMaxBy id a l := by
    have := hm0r.1
    simp only [id] at this hspan ⊢
    linarith
  set m := selMinBy (adjustTheta Pi) a l with hmdef
  set M := selMaxBy (adjustTheta Pi) a l with hMdef
  have hmmem : m ∈ a :: l := selMinBy_mem _ a l
  have hMmem : M ∈ a :: l := selMaxBy_mem _ a l
  have hmr := hrange _ hmmem
  have hMr := hrange _ hMmem
  -- the adjusted argmin is a nonnegative bearing
  have hmnn : 0 ≤ m := by
    by_contra hneg
    push_neg at hneg
    have h1 : adjustTheta Pi m ≤ adjustTheta Pi (selMaxBy id a l) :=
      selMinBy_le _ a l _ hM0
    have h2 : adjustTheta Pi (selMaxBy id a l) = selMaxBy id a l := by
      simp [adjustTheta, not_lt.mpr (le_of_lt hM0pos)]
    have h3 : adjustTheta Pi m = m + 2 * Pi := by simp [adjustTheta, hneg]
    have := hM0r.2
    simp only [id] at this
    rw [h2] at h1
    rw [h3] at h1
    linarith [hmr.1]
  -- the adjusted argmax is a negative bearing
  have hMneg : M < 0 := by
    by_contra hnn
    push_neg at hnn
    have h1 : adjustTheta Pi (selMinBy id a l) ≤ adjustTheta Pi M :=
      selMaxBy_ge _ a l _ hm0
    have h2 : adjustTheta Pi (selMinBy id a l) = selMinBy id a l + 2 * Pi := by
      simp [adjustTheta, hm0neg]
    have h3 : adjustTheta Pi M = M := by simp [adjustTheta, not_lt.mpr hnn]
    have := hMr.2
    rw [h2, h3] at h1
    linarith [hm0r.1]
  have hadjm : adjustTheta Pi m = m := by simp [adjustTheta, not_lt.mpr hmnn]
  have hadjM : adjustTheta Pi M = M + 2 * Pi := by simp [adjustTheta, hMneg]
  have hgt : m > M := lt_of_lt_of_le hMneg hmnn
  have hw : selectWedge Pi a l = (m, M + 2 * Pi) := selectWedge_eq Pi a l hspan hgt
  rw [hw]
  refine ⟨⟨m, hmmem, hadjm⟩, ⟨M, hMmem, hadjM⟩, ?_, ?_⟩
  · intro θ hθ
    constructor
    · have := selMinBy_le (adjustTheta Pi) a l θ hθ
      rw [hadjm] at this
      exact this
    · have := selMaxBy_ge (adjustTheta Pi) a l θ hθ
      rw [hadjM] at this
      exact this
  · have := hhalf M hMmem m hmmem
    rw [hadjm, hadjM] at this
    show M + 2 * Pi - m < Pi
    linarith

/-- Witness for C4: `Pi = 3` standing for π, bearings `{29/10, -29/10}` straddling the
`±Pi` cut. -/
theorem selectWedge_picks_minimal_wedge_witness :
    (∀ θ ∈ [(29 : ℚ)/10, -29/10], -3 < θ ∧ θ ≤ 3) ∧
    (selMaxBy id (29/10) [(-29 : ℚ)/10] - selMinBy id (29/10) [(-29 : ℚ)/10] > 3) ∧
    (∀ θ₁ ∈ [(29 : ℚ)/10, -29/10], ∀ θ₂ ∈ [(29 : ℚ)/10, -29/10],
      adjustTheta 3 θ₁ - adjustTheta 3 θ₂ < 3) ∧
    ((∃ θ ∈ [(29 : ℚ)/10, -29/10], adjustTheta 3 θ = (selectWedge 3 (29/10) [(-29 : ℚ)/10]).1) ∧
     (∃ θ ∈ [(29 : ℚ)/10, -29/10], adjustTheta 3 θ = (selectWedge 3 (29/10) [(-29 : ℚ)/10]).2) ∧
     (∀ θ ∈ [(29 : ℚ)/10, -29/10], (selectWedge 3 (29/10) [(-29 : ℚ)/10]).1 ≤ adjustTheta 3 θ ∧
       adjustTheta 3 θ ≤ (selectWedge 3 (29/10) [(-29 : ℚ)/10]).2) ∧
     (selectWedge 3 (29/10) [(-29 : ℚ)/10]).2 - (selectWedge 3 (29/10) [(-29 : ℚ)/10]).1 < 3) :=
  ⟨by with_unfolding_all decide, by with_unfolding_all decide, by with_unfolding_all decide,
   selectWedge_picks_minimal_wedge 3 (29/10) [(-29 : ℚ)/10]
     (by with_unfolding_all decide) (by with_unfolding_all decide)
     (by with_unfolding_all decide)⟩

/-- C5 (refutation of the totality claim): the first corner walk of
`makeInvisibleArea` exits only when `corners(i).theta() >= minang`.  Whenever the
minimum bearing `minang` exceeds all four rectangle-corner bearings — which happens
for admissible hulls, e.g. a vertex just above the negative x-axis, whose bearing
approaches π while the largest corner bearing (top-left) is strictly below π — the
exit test fails for every `i`, because `corners(i).theta()` cycles through the same
four values with no `+2π` wrap term (unlike the second walk), so the loop never
terminates. -/
theorem firstCornerWalk_never_exits (c : Fin 4 → ℚ) (minang Pi : ℚ)
    (hadmissible : -Pi < minang ∧ minang ≤ Pi)
    (hmax : ∀ j : Fin 4, c j < minang) (i : ℕ) :
    ¬ minang ≤ cornersTheta c i :=
  not_le.mpr (hmax _)

/-- Witness for C5: corner bearings of a 10×10, resolution-1 grid (rational
approximations of `atan2(±5, ±5)`, i.e. `±π/4, ±3π/4`), `Pi = 22/7`, and minimum
bearing `313/100` (the bearing of a hull vertex near `(-10, 0.1)`): the exit test
fails at iteration 5 (and all others). -/
theorem firstCornerWalk_never_exits_witness :
    (-(22 : ℚ)/7 < 313/100 ∧ (313 : ℚ)/100 ≤ 22/7) ∧
    (∀ j : Fin 4, ![(-2356 : ℚ)/1000, -785/1000, 785/1000, 2356/1000] j < 313/100) ∧
    ¬ (313 : ℚ)/100 ≤ cornersTheta ![(-2356 : ℚ)/1000, -785/1000, 785/1000, 2356/1000] 5 :=
  ⟨⟨by norm_num, by norm_num⟩, by with_unfolding_all decide,
   firstCornerWalk_never_exits _ _ (22/7) ⟨by norm_num, by norm_num⟩
     (by with_unfolding_all decide) 5⟩

/-- C8: for a fixed reset origin and a finite sequence of primitives that does not
overflow the counter, issuing the `add()` calls in any permuted order yields the same
builder state — and hence, after `build()`, the identical `values` array: accumulation
into each difference array is additive and independent per primitive.
`invf` abstracts the deterministic invisible-area computation of `add`. -/
theorem runAdds_perm_invariant (pr : Params) (invf : List Vec3 → List Vec3) (o : Pose)
    (s0 : GridState) (l l' : List (List Vec3))
    (hperm : l.Perm l') (hlen : l.length ≤ pr.count_max)
    (hocc : s0.occupied_grid.length = pr.height * pr.width)
    (hinv : s0.invisible_grid.length = pr.height * pr.width) :
    runAdds pr invf l (reset o s0) = runAdds pr invf l' (reset o s0) ∧
    (runAdds pr invf l (reset o s0)).map (build pr) =
      (runAdds pr invf l' (reset o s0)).map (build pr) := by
  have hro : (reset o s0).occupied_grid.length = pr.height * pr.width := by
    simp [reset, hocc]
  have hri : (reset o s0).invisible_grid.length = pr.height * pr.width := by
    simp [reset, hinv]
  have hc1 : (reset o s0).primitive_count + l.length ≤ pr.count_max := by
    simp only [reset]
    omega
  have hc2 : (reset o s0).primitive_count + l'.length ≤ pr.count_max := by
    simp only [reset]
    rw [← hperm.length_eq]
    omega
  obtain ⟨s2, he, ho, hv, hc, hol, hil, hog, hig⟩ :=
    runAdds_ok pr invf l (reset o s0) hro hri hc1
  obtain ⟨s2', he', ho', hv', hc', hol', hil', hog', hig'⟩ :=
    runAdds_ok pr invf l' (reset o s0) hro hri hc2
  have heq : s2 = s2' := by
    ext1
    · rw [ho, ho']
    · rw [hc, hc', hperm.length_eq]
    · refine eq_of_getD _ _ (by rw [hol, hol']) fun j => ?_
      rw [hog j, hog' j,
        List.Perm.sum_eq (hperm.map
          fun hl => polyDelta pr (makeOccupiedArea (reset o s0).origin hl) j)]
    · refine eq_of_getD _ _ (by rw [hil, hil']) fun j => ?_
      rw [hig j, hig' j,
        List.Perm.sum_eq (hperm.map
          fun hl => polyDelta pr (invf (makeOccupiedArea (reset o s0).origin hl)) j)]
    · rw [hv, hv']
  constructor
  · rw [he, he', heq]
  · rw [he, he', heq]

/-- Witness for C8: two primitives (one nonempty hull and one empty one) added in both
orders on a 1×1 grid. -/
theorem runAdds_perm_invariant_witness :
    ([[(⟨0, 0, 0⟩ : Vec3)], []].Perm [[], [(⟨0, 0, 0⟩ : Vec3)]]) ∧
    ([[(⟨0, 0, 0⟩ : Vec3)], []].length ≤ (Params.mk 1 1 1 100 50 3).count_max) ∧
    ((initState (Params.mk 1 1 1 100 50 3)).occupied_grid.length =
      (Params.mk 1 1 1 100 50 3).height * (Params.mk 1 1 1 100 50 3).width) ∧
    (runAdds (Params.mk 1 1 1 100 50 3) (fun _ => []) [[(⟨0, 0, 0⟩ : Vec3)], []]
        (reset ⟨⟨0, 0, 0⟩, ⟨1, 0, 0, 0⟩⟩ (initState (Params.mk 1 1 1 100 50 3))) =
      runAdds (Params.mk 1 1 1 100 50 3) (fun _ => []) [[], [(⟨0, 0, 0⟩ : Vec3)]]
        (reset ⟨⟨0, 0, 0⟩, ⟨1, 0, 0, 0⟩⟩ (initState (Params.mk 1 1 1 100 50 3))) ∧
     (runAdds (Params.mk 1 1 1 100 50 3) (fun _ => []) [[(⟨0, 0, 0⟩ : Vec3)], []]
        (reset ⟨⟨0, 0, 0⟩, ⟨1, 0, 0, 0⟩⟩ (initState (Params.mk 1 1 1 100 50 3)))).map
          (build (Params.mk 1 1 1 100 50 3)) =
      (runAdds (Params.mk 1 1 1 100 50 3) (fun _ => []) [[], [(⟨0, 0, 0⟩ : Vec3)]]
        (reset ⟨⟨0, 0, 0⟩, ⟨1, 0, 0, 0⟩⟩ (initState (Params.mk 1 1 1 100 50 3)))).map
          (build (Params.mk 1 1 1 100 50 3))) :=
  ⟨List.Perm.swap [] [(⟨0, 0, 0⟩ : Vec3)] [], by norm_num,
   by simp [initState],
   runAdds_perm_invariant (Params.mk 1 1 1 100 50 3) (fun _ => [])
     ⟨⟨0, 0, 0⟩, ⟨1, 0, 0, 0⟩⟩ (initState (Params.mk 1 1 1 100 50 3)) _ _
     (List.Perm.swap [] [(⟨0, 0, 0⟩ : Vec3)] []) (by norm_num)
     (by simp [initState]) (by simp [initState])⟩

/-- C3 (amended): after a reset and exactly `count_max` successful `add()` calls, the
next `add()` call fails with the capacity error; the failing call leaves the origin,
both accumulator arrays and the `values` array unmodified, but — because the check is
`primitive_count_++ == count_max`, whose post-increment wraps the unsigned counter —
the primitive counter itself is left at 0 rather than `count_max`. -/
theorem add_overflow_effect (pr : Params) (invf : List Vec3 → List Vec3) (o : Pose)
    (s0 : GridState) (l : List (List Vec3)) (p : List Vec3)
    (hlen : l.length = pr.count_max)
    (hocc : s0.occupied_grid.length = pr.height * pr.width)
    (hinv : s0.invisible_grid.length = pr.height * pr.width) :
    ∃ s1, runAdds pr invf l (reset o s0) = .ok s1 ∧
      s1.primitive_count = pr.count_max ∧
      add pr invf p s1 = .error { s1 with primitive_count := 0 } := by
  have hro : (reset o s0).occupied_grid.length = pr.height * pr.width := by
    simp [reset, hocc]
  have hri : (reset o s0).invisible_grid.length = pr.height * pr.width := by
    simp [reset, hinv]
  have hc1 : (reset o s0).primitive_count + l.length ≤ pr.count_max := by
    simp only [reset]
    omega
  obtain ⟨s1, he, -, -, hc, -, -, -, -⟩ := runAdds_ok pr invf l (reset o s0) hro hri hc1
  have hcm : s1.primitive_count = pr.count_max := by
    rw [hc, hlen]
    simp [reset]
  refine ⟨s1, he, hcm, ?_⟩
  simp [add, hcm]

/-- Witness for C3's amended theorem: `count_max = 2`, two empty-hull adds, then the
failing third call. -/
theorem add_overflow_effect_witness :
    (([[], []] : List (List Vec3)).length = (Params.mk 1 1 1 100 50 2).count_max) ∧
    ((initState (Params.mk 1 1 1 100 50 2)).occupied_grid.length =
      (Params.mk 1 1 1 100 50 2).height * (Params.mk 1 1 1 100 50 2).width) ∧
    (∃ s1, runAdds (Params.mk 1 1 1 100 50 2) (fun _ => []) [[], []]
        (reset ⟨⟨0, 0, 0⟩, ⟨1, 0, 0, 0⟩⟩ (initState (Params.mk 1 1 1 100 50 2))) =
          .ok s1 ∧
      s1.primitive_count = (Params.mk 1 1 1 100 50 2).count_max ∧
      add (Params.mk 1 1 1 100 50 2) (fun _ => []) [] s1 =
        .error { s1 with primitive_count := 0 }) :=
  ⟨by norm_num, by simp [initState],
   add_overflow_effect (Params.mk 1 1 1 100 50 2) (fun _ => [])
     ⟨⟨0, 0, 0⟩, ⟨1, 0, 0, 0⟩⟩ (initState (Params.mk 1 1 1 100 50 2)) [[], []] []
     (by norm_num) (by simp [initState]) (by simp [initState])⟩

/-- Counterexample to C3 as stated: with `count_max = 2`, after two successful adds the
third `add()` does fail with the capacity error, but it does not leave all previously
accumulated state unmodified — the primitive counter wraps from 2 to 0 during the
failing call, so the error state differs from the pre-call state. -/
theorem add_overflow_cex :
    runAdds (Params.mk 1 1 1 100 50 2) (fun _ => []) [[], []]
        (reset ⟨⟨0, 0, 0⟩, ⟨1, 0, 0, 0⟩⟩ (initState (Params.mk 1 1 1 100 50 2))) =
      .ok ⟨⟨⟨0, 0, 0⟩, ⟨1, 0, 0, 0⟩⟩, 2, [0], [0], [0]⟩ ∧
    add (Params.mk 1 1 1 100 50 2) (fun _ => []) []
        ⟨⟨⟨0, 0, 0⟩, ⟨1, 0, 0, 0⟩⟩, 2, [0], [0], [0]⟩ =
      .error ⟨⟨⟨0, 0, 0⟩, ⟨1, 0, 0, 0⟩⟩, 0, [0], [0], [0]⟩ ∧
    (⟨⟨⟨0, 0, 0⟩, ⟨1, 0, 0, 0⟩⟩, 0, [0], [0], [0]⟩ : GridState) ≠
      ⟨⟨⟨0, 0, 0⟩, ⟨1, 0, 0, 0⟩⟩, 2, [0], [0], [0]⟩ :=
  ⟨by with_unfolding_all rfl, by with_unfolding_all rfl,
   by with_unfolding_all decide⟩

/-! ### The values array produced by build -/

theorem getD_map_range (n : ℕ) (f : ℕ → ℤ) (i : ℕ) (d : ℤ) :
    ((List.range n).map f).getD i d = if i < n then f i else d := by
  rcases Nat.lt_or_ge i n with h | h
  · rw [if_pos h, List.getD_eq_getElem?_getD, List.getElem?_map, List.getElem?_range h]
    rfl
  · rw [if_neg (not_lt.mpr h), List.getD_eq_getElem?_getD, List.getElem?_map,
      List.getElem?_eq_none (by simpa using h)]
    rfl

theorem build_values_getD (pr : Params) (s : GridState) (i : ℕ)
    (hi : i < pr.height * pr.width) :
    (build pr s).values.getD i 0 =
      if (imosPass pr.height pr.width s.occupied_grid).getD i 0 ≠ 0 then pr.occupied_cost
      else if (imosPass pr.height pr.width s.invisible_grid).getD i 0 ≠ 0 then
        pr.invisible_cost
      else 0 := by
  simp only [build]
  rw [getD_map_range _ _ i 0, if_pos hi]

/-- C1 (amended): after `build()`, `values[i]` is `occupied_cost` when the
prefix-summed occupied count at `i` is nonzero, else `invisible_cost` when the
prefix-summed invisible count at `i` is nonzero, else 0.  (The C++ condition is
truthiness — nonzero — not "greater than 0"; the two differ on reachable states, see
the counterexample.) -/
theorem build_values_from_accumulators (pr : Params) (s : GridState)
    (hocc : s.occupied_grid.length = pr.height * pr.width)
    (hinv : s.invisible_grid.length = pr.height * pr.width)
    (i : ℕ) (hi : i < pr.height * pr.width) :
    (build pr s).values.getD i 0 =
      if sumTo s.occupied_grid (i / pr.width * pr.width) (i % pr.width) ≠ 0 then
        pr.occupied_cost
      else if sumTo s.invisible_grid (i / pr.width * pr.width) (i % pr.width) ≠ 0 then
        pr.invisible_cost
      else 0 := by
  have hw : 0 < pr.width := by
    rcases Nat.eq_zero_or_pos pr.width with h0 | h0
    · rw [h0, Nat.mul_zero] at hi
      omega
    · exact h0
  have hρ : i / pr.width < pr.height := by
    rw [Nat.div_lt_iff_lt_mul hw]
    exact hi
  have hc : i % pr.width < pr.width := Nat.mod_lt _ hw
  have hdecomp : i / pr.width * pr.width + i % pr.width = i := by
    have h := Nat.div_add_mod i pr.width
    rw [Nat.mul_comm] at h
    exact h
  rw [build_values_getD pr s i hi]
  have hocc2 : (imosPass pr.height pr.width s.occupied_grid).getD i 0 =
      sumTo s.occupied_grid (i / pr.width * pr.width) (i % pr.width) := by
    conv_lhs => rw [← hdecomp]
    exact imosPass_getD pr.height pr.width s.occupied_grid _ _ hρ hc
      (by rw [hdecomp, hocc]; exact hi)
  have hinv2 : (imosPass pr.height pr.width s.invisible_grid).getD i 0 =
      sumTo s.invisible_grid (i / pr.width * pr.width) (i % pr.width) := by
    conv_lhs => rw [← hdecomp]
    exact imosPass_getD pr.height pr.width s.invisible_grid _ _ hρ hc
      (by rw [hdecomp, hinv]; exact hi)
  rw [hocc2, hinv2]

/-- Witness for C1's amended theorem at a freshly constructed 1×1 builder. -/
theorem build_values_from_accumulators_witness :
    ((initState (Params.mk 1 1 1 100 50 5)).occupied_grid.length =
      (Params.mk 1 1 1 100 50 5).height * (Params.mk 1 1 1 100 50 5).width) ∧
    (0 < (Params.mk 1 1 1 100 50 5).height * (Params.mk 1 1 1 100 50 5).width) ∧
    ((build (Params.mk 1 1 1 100 50 5) (initState (Params.mk 1 1 1 100 50 5))).values.getD 0 0 =
      if sumTo (initState (Params.mk 1 1 1 100 50 5)).occupied_grid
          (0 / (Params.mk 1 1 1 100 50 5).width * (Params.mk 1 1 1 100 50 5).width)
          (0 % (Params.mk 1 1 1 100 50 5).width) ≠ 0 then
        (Params.mk 1 1 1 100 50 5).occupied_cost
      else if sumTo (initState (Params.mk 1 1 1 100 50 5)).invisible_grid
          (0 / (Params.mk 1 1 1 100 50 5).width * (Params.mk 1 1 1 100 50 5).width)
          (0 % (Params.mk 1 1 1 100 50 5).width) ≠ 0 then
        (Params.mk 1 1 1 100 50 5).invisible_cost
      else 0) :=
  ⟨by simp [initState], by norm_num,
   build_values_from_accumulators (Params.mk 1 1 1 100 50 5)
     (initState (Params.mk 1 1 1 100 50 5)) (by simp [initState]) (by simp [initState])
     0 (by norm_num)⟩

/-- Counterexample to C1 as stated: rasterizing `cexPolyLeft` (a polygon crossing the
left grid edge inside row 0) skips the `+1` write (its recorded min column is
negative) but performs the `-1` write, so after the prefix sum the occupied count at
cell 2 is `-1`.  The code then assigns `occupied_cost` (the count is nonzero), while
the claim's rule — occupied only when the count is *greater than 0*, else invisible
when *greater than 0*, else 0 — demands 0. -/
theorem build_values_gt_zero_cex :
    (build cexParams cexStateLeft).values.getD 2 0 = 100 ∧
    sumTo cexStateLeft.occupied_grid (2 / 4 * 4) (2 % 4) = -1 ∧
    sumTo cexStateLeft.invisible_grid (2 / 4 * 4) (2 % 4) = 0 ∧
    ¬((build cexParams cexStateLeft).values.getD 2 0 =
      (if 0 < sumTo cexStateLeft.occupied_grid (2 / 4 * 4) (2 % 4) then
        cexParams.occupied_cost
       else if 0 < sumTo cexStateLeft.invisible_grid (2 / 4 * 4) (2 % 4) then
        cexParams.invisible_cost
       else 0)) := by
  refine ⟨?_, ?_, ?_, ?_⟩ <;> with_unfolding_all decide

/-! ### Per-row sums of the applied difference-array updates -/

theorem sum_indicator_eq (w k : ℕ) (A B : Prop) [Decidable A] [Decidable B]
    (hk : A → B → k < w) :
    (∑ c ∈ Finset.range w, if A ∧ B ∧ c = k then (1 : ℤ) else 0) =
      if A ∧ B then 1 else 0 := by
  by_cases hA : A
  · by_cases hB : B
    · rw [if_pos ⟨hA, hB⟩]
      have he : ∀ c, (if A ∧ B ∧ c = k then (1 : ℤ) else 0) =
          if c = k then (1 : ℤ) else 0 := by
        intro c
        by_cases hc : c = k <;> simp [hA, hB, hc]
      rw [Finset.sum_congr rfl fun c _ => he c,
        Finset.sum_ite_eq' (Finset.range w) k fun _ => (1 : ℤ),
        if_pos (Finset.mem_range.mpr (hk hA hB))]
    · rw [if_neg (fun hc => hB hc.2)]
      exact Finset.sum_eq_zero fun c _ => by rw [if_neg (fun hc => hB hc.2.1)]
  · rw [if_neg (fun hc => hA hc.1)]
    exact Finset.sum_eq_zero fun c _ => by rw [if_neg (fun hc => hA hc.1)]

/-- C2 (amended): the sum of all increments and decrements one `addPolygon` call
applies to a row equals the `+1` indicator of its min-column guard minus the `-1`
indicator of its max-column guard.  In particular it is 0 exactly when both guards
hold or neither does; a row whose recorded span is clipped by the row boundary gets
`+1` (min column in range, max column + 1 out) or `-1` (min column negative, max
column + 1 in range), so span closure as originally stated fails for clipped rows. -/
theorem rowAppliedSum_characterization (pr : Params) (g : List ℤ) (poly : List Vec3)
    (hg : g.length = pr.height * pr.width) (r : ℕ) (hr : r < pr.height) :
    ((0 ≤ (scanPolygon pr poly).1 r ∧ (scanPolygon pr poly).1 r < (pr.width : ℤ) ∧
        0 ≤ (scanPolygon pr poly).2 r ∧
        (scanPolygon pr poly).2 r + 1 < (pr.width : ℤ)) →
      rowAppliedSum pr g poly r = 0) ∧
    rowAppliedSum pr g poly r =
      (if 0 ≤ (scanPolygon pr poly).1 r ∧ (scanPolygon pr poly).1 r < (pr.width : ℤ)
        then 1 else 0)
      - (if 0 ≤ (scanPolygon pr poly).2 r ∧
            (scanPolygon pr poly).2 r + 1 < (pr.width : ℤ) then 1 else 0) := by
  have hchar : rowAppliedSum pr g poly r =
      (if 0 ≤ (scanPolygon pr poly).1 r ∧ (scanPolygon pr poly).1 r < (pr.width : ℤ)
        then 1 else 0)
      - (if 0 ≤ (scanPolygon pr poly).2 r ∧
            (scanPolygon pr poly).2 r + 1 < (pr.width : ℤ) then 1 else 0) := by
    unfold rowAppliedSum
    have hterm : ∀ c ∈ Finset.range pr.width,
        (addPolygon pr g poly).getD (pr.width * r + c) 0 -
            g.getD (pr.width * r + c) 0 =
          rowDelta pr.width (scanPolygon pr poly).1 (scanPolygon pr poly).2 r c := by
      intro c hcmem
      have hcw := Finset.mem_range.mp hcmem
      have hw : 0 < pr.width := by omega
      rw [addPolygon_getD pr g poly hg (pr.width * r + c)]
      have hidx : pr.width * r + c < pr.height * pr.width := by
        calc pr.width * r + c < pr.width * r + pr.width := by omega
          _ = pr.width * (r + 1) := (Nat.mul_succ _ _).symm
          _ ≤ pr.width * pr.height := Nat.mul_le_mul_left _ hr
          _ = pr.height * pr.width := Nat.mul_comm _ _
      have hdiv : (pr.width * r + c) / pr.width = r := by
        rw [Nat.mul_add_div hw, Nat.div_eq_of_lt hcw]
        omega
      have hmod : (pr.width * r + c) % pr.width = c := by
        rw [Nat.mul_add_mod]
        exact Nat.mod_eq_of_lt hcw
      simp only [polyDelta, hdiv, hmod, if_pos hidx]
      ring
    rw [Finset.sum_congr rfl hterm]
    unfold rowDelta
    rw [Finset.sum_sub_distrib,
      sum_indicator_eq pr.width ((scanPolygon pr poly).1 r).toNat _ _
        (fun h1 h2 => by omega),
      sum_indicator_eq pr.width (((scanPolygon pr poly).2 r).toNat + 1) _ _
        (fun h1 h2 => by omega)]
  refine ⟨fun hcl => ?_, hchar⟩
  rw [hchar, if_pos ⟨hcl.1, hcl.2.1⟩, if_pos ⟨hcl.2.2.1, hcl.2.2.2⟩]
  ring

/-- Witness for C2's amended theorem: the characterization evaluated for
`cexPolyRight` on row 0 of a zero grid. -/
theorem rowAppliedSum_characterization_witness :
    ((List.replicate 8 (0 : ℤ)).length = cexParams.height * cexParams.width) ∧
    (0 < cexParams.height) ∧
    (((0 ≤ (scanPolygon cexParams cexPolyRight).1 0 ∧
        (scanPolygon cexParams cexPolyRight).1 0 < (cexParams.width : ℤ) ∧
        0 ≤ (scanPolygon cexParams cexPolyRight).2 0 ∧
        (scanPolygon cexParams cexPolyRight).2 0 + 1 < (cexParams.width : ℤ)) →
      rowAppliedSum cexParams (List.replicate 8 0) cexPolyRight 0 = 0) ∧
     rowAppliedSum cexParams (List.replicate 8 0) cexPolyRight 0 =
      (if 0 ≤ (scanPolygon cexParams cexPolyRight).1 0 ∧
          (scanPolygon cexParams cexPolyRight).1 0 < (cexParams.width : ℤ)
        then 1 else 0)
      - (if 0 ≤ (scanPolygon cexParams cexPolyRight).2 0 ∧
            (scanPolygon cexParams cexPolyRight).2 0 + 1 < (cexParams.width : ℤ)
          then 1 else 0)) :=
  ⟨by with_unfolding_all decide, by norm_num [cexParams],
   rowAppliedSum_characterization cexParams (List.replicate 8 0) cexPolyRight
     (by with_unfolding_all decide) 0 (by norm_num [cexParams])⟩

/-- Counterexample to C2 as stated: row 0 is touched by the traversal of
`cexPolyRight` (its pixel segment runs from column 0 past the right edge of the
4-wide grid), yet the sum of the updates the call applies to that row is `+1`, not 0:
the `+1` write happens at the recorded min column 0, while the closing `-1` write is
skipped because the recorded max column is the last column of the row. -/
theorem rowAppliedSum_zero_cex :
    TouchedRow cexParams cexPolyRight 0 ∧
    rowAppliedSum cexParams (List.replicate 8 0) cexPolyRight 0 = 1 := by
  refine ⟨⟨(0, 0), ?_, ?_⟩, ?_⟩
  · with_unfolding_all decide
  · with_unfolding_all decide
  · with_unfolding_all decide

/-! ### Bounds of the difference-array writes -/

theorem addPolygon_frame (pr : Params) (g : List ℤ) (poly : List Vec3)
    (hg : g.length = pr.height * pr.width) (j : ℕ)
    (hj : j ∉ addPolygonWrites pr poly) :
    (addPolygon pr g poly).getD j 0 = g.getD j 0 := by
  rw [addPolygon_getD pr g poly hg j]
  suffices h : polyDelta pr poly j = 0 by rw [h]; ring
  unfold polyDelta
  split_ifs with hlt
  · have hw : 0 < pr.width := by
      rcases Nat.eq_zero_or_pos pr.width with h0 | h0
      · rw [h0, Nat.mul_zero] at hlt
        omega
      · exact h0
    have hρ : j / pr.width < pr.height := by
      rw [Nat.div_lt_iff_lt_mul hw]
      exact hlt
    have hdecomp : pr.width * (j / pr.width) + j % pr.width = j :=
      Nat.div_add_mod j pr.width
    unfold rowDelta
    split_ifs with hi1 hi2 hi2
    · ring
    · exfalso
      apply hj
      unfold addPolygonWrites
      rw [List.mem_flatMap]
      refine ⟨j / pr.width, List.mem_range.mpr hρ, ?_⟩
      unfold rowWrites
      rw [List.mem_append]
      left
      rw [if_pos ⟨hi1.1, hi1.2.1⟩, List.mem_singleton]
      omega
    · exfalso
      apply hj
      unfold addPolygonWrites
      rw [List.mem_flatMap]
      refine ⟨j / pr.width, List.mem_range.mpr hρ, ?_⟩
      unfold rowWrites
      rw [List.mem_append]
      right
      rw [if_pos ⟨hi2.1, hi2.2.1⟩, List.mem_singleton]
      omega
    · ring
  · rfl

/-- C10: every difference-array write `addPolygon` performs uses an index
`width*row + col` with `row < height` and `col < width` (hence in bounds of the
`height*width` array); every scratch-buffer access uses a row index below `height`;
and the array is unchanged at every index outside the listed writes, so the listed
writes are exactly the cells the call can touch. -/
theorem addPolygon_access_bounds (pr : Params) (poly : List Vec3) :
    (∀ j ∈ addPolygonWrites pr poly,
      j < pr.height * pr.width ∧
      ∃ r c, j = pr.width * r + c ∧ r < pr.height ∧ c < pr.width) ∧
    (∀ ρ ∈ scratchRows pr poly, ρ < pr.height) ∧
    (∀ g : List ℤ, g.length = pr.height * pr.width → ∀ j ∉ addPolygonWrites pr poly,
      (addPolygon pr g poly).getD j 0 = g.getD j 0) := by
  refine ⟨?_, ?_, fun g hg j hj => addPolygon_frame pr g poly hg j hj⟩
  · intro j hJ
    unfold addPolygonWrites at hJ
    rw [List.mem_flatMap] at hJ
    obtain ⟨r, hr, hwmem⟩ := hJ
    have hrh : r < pr.height := List.mem_range.mp hr
    have hbound : ∀ c < pr.width, pr.width * r + c < pr.height * pr.width := by
      intro c hc
      calc pr.width * r + c < pr.width * r + pr.width := by omega
        _ = pr.width * (r + 1) := (Nat.mul_succ _ _).symm
        _ ≤ pr.width * pr.height := Nat.mul_le_mul_left _ hrh
        _ = pr.height * pr.width := Nat.mul_comm _ _
    unfold rowWrites at hwmem
    rw [List.mem_append] at hwmem
    rcases hwmem with hwmem | hwmem
    · split_ifs at hwmem with h1
      · rw [List.mem_singleton] at hwmem
        subst hwmem
        have hcw : ((scanPolygon pr poly).1 r).toNat < pr.width := by omega
        exact ⟨hbound _ hcw, r, _, rfl, hrh, hcw⟩
      · exact absurd hwmem (List.not_mem_nil _)
    · split_ifs at hwmem with h2
      · rw [List.mem_singleton] at hwmem
        subst hwmem
        have hcw : ((scanPolygon pr poly).2 r).toNat + 1 < pr.width := by omega
        exact ⟨hbound _ hcw, r, _, rfl, hrh, hcw⟩
      · exact absurd hwmem (List.not_mem_nil _)
  · intro ρ hρ
    unfold scratchRows at hρ
    rw [List.mem_filterMap] at hρ
    obtain ⟨cr, -, hcr⟩ := hρ
    split_ifs at hcr with hg
    cases Option.some.inj hcr
    omega

/-- Witness for C10 at `cexPolyRight`: index 0 is among the performed writes and
decomposes in bounds. -/
theorem addPolygon_access_bounds_witness :
    (0 ∈ addPolygonWrites cexParams cexPolyRight) ∧
    (0 < cexParams.height * cexParams.width ∧
      ∃ r c, 0 = cexParams.width * r + c ∧ r < cexParams.height ∧ c < cexParams.width) :=
  ⟨by with_unfolding_all decide,
   (addPolygon_access_bounds cexParams cexPolyRight).1 0 (by with_unfolding_all decide)⟩

end OccupancyGrid
